import Mathlib

/-!
# meta-init: the directive interpreter of `meta-init.go`

A shallow embedding of `src/meta-init.go` from the point where the metadata
document has been parsed (line 85) to the end of `main`, and theorems about it.

* A decoded JSON value (`interface{}` as filled in by `encoding/json`) is a `Json`.
* The Go type `Hash` (`map[string]interface{}`) is an optional association list:
  `none` is the nil map, `some m` a non-nil map whose entry for a key is the first
  pair carrying that key.  A nil and an empty map differ (`unpackHash` tells them
  apart), so both are kept.
* A Go `string` is a Lean `String`; Go compares strings bytewise, so the order used
  by `sort.Strings` is the lexicographic order of the UTF-8 bytes (`utf8`).
* Everything outside the process (the file system, the network, child processes)
  is an `OS σ`: each call takes the outside state and returns its answer and the new
  state.  A run returns its result (or the panic that ended it), the outside state,
  and the list of calls it made, in order.
-/

namespace MetaInit

/-! ## Decoded JSON and the `Hash` type -/

/-- A value decoded by `json.Unmarshal` into an `interface{}`.  `null` is the nil
interface.  The payload of a number is never inspected by the program. -/
inductive Json where
  | null : Json
  | bool (b : Bool) : Json
  | num (n : Int) : Json
  | str (s : String) : Json
  | arr (items : List Json) : Json
  | obj (fields : List (String × Json)) : Json

/-- The entries of a non-nil `map[string]interface{}`. -/
abbrev Fields := List (String × Json)

/-- `type Hash map[string]interface{}` (line 27); `none` is the nil map. -/
abbrev Hash := Option Fields

/-- The first value stored under `key` in an association list. -/
def assoc (key : String) : Fields → Option Json
  | [] => none
  | (k, v) :: rest => if k = key then some v else assoc key rest

/-- The Go expression `hash[key]`: the stored value, or the nil interface when the
map is nil or has no entry for `key`. -/
def Hash.index (hash : Hash) (key : String) : Json :=
  match hash with
  | none => Json.null
  | some m => (assoc key m).getD Json.null

/-- The keys visited by `for k := range hash`, each once, in the order in which this
representation of the map lists them (Go leaves the order unspecified). -/
def Hash.keys (hash : Hash) : List String :=
  match hash with
  | none => []
  | some m => (m.map Prod.fst).dedup

/-- The Go test `v != nil` on an `interface{}` holding decoded JSON. -/
def Json.isNil : Json → Bool
  | Json.null => true
  | _ => false

/-- The text of `reflect.ValueOf(v).Kind().String()` for a decoded JSON value. -/
def Json.kind : Json → String
  | Json.null => "invalid"
  | Json.bool _ => "bool"
  | Json.num _ => "float64"
  | Json.str _ => "string"
  | Json.arr _ => "slice"
  | Json.obj _ => "map"

/-! ## Byte order of Go strings -/

/-- The UTF-8 bytes of the code point `n`. -/
def utf8EncodeNat (n : Nat) : List Nat :=
  if n < 0x80 then [n]
  else if n < 0x800 then [0xC0 + n / 64, 0x80 + n % 64]
  else if n < 0x10000 then [0xE0 + n / 4096, 0x80 + n / 64 % 64, 0x80 + n % 64]
  else [0xF0 + n / 262144, 0x80 + n / 4096 % 64, 0x80 + n / 64 % 64, 0x80 + n % 64]

/-- The bytes of a list of characters. -/
def utf8Chars : List Char → List Nat
  | [] => []
  | c :: cs => utf8EncodeNat c.toNat ++ utf8Chars cs

/-- The bytes of a Go string. -/
def utf8 (s : String) : List Nat := utf8Chars s.data

/-- Lexicographic `≤` on byte sequences. -/
def bytesLE : List Nat → List Nat → Bool
  | [], _ => true
  | _ :: _, [] => false
  | a :: as, b :: bs => decide (a < b) || (decide (a = b) && bytesLE as bs)

/-- Go's `a <= b` on strings: bytewise lexicographic comparison. -/
def StrLE (a b : String) : Prop := bytesLE (utf8 a) (utf8 b) = true

instance : DecidableRel StrLE := fun a b =>
  inferInstanceAs (Decidable (bytesLE (utf8 a) (utf8 b) = true))

/-- `sort.Strings`: the list in increasing byte order. -/
def sortStrings (l : List String) : List String := l.insertionSort StrLE

/-! ## Runs: panics, calls to the outside, and the log -/

/-- A run-time panic of the Go program. -/
inductive Panic where
  /-- A failed type assertion `x.(T)`: the asserted type and the kind found. -/
  | typeAssertion (wanted found : String) : Panic
  /-- A field read through a nil pointer. -/
  | nilDereference : Panic
  deriving DecidableEq

/-- An `exec.Cmd` as `applyCommand` fills it in: `exec.Command(name, args...)`, then
`Env` (`none` is the nil slice: the child gets the parent's environment) and `Dir`
(the empty string is the parent's working directory). -/
structure Cmd where
  name : String
  args : List String
  env : Option (List String)
  dir : String
  deriving DecidableEq

/-- The calls the program makes to the outside. -/
inductive Call where
  | printf (text : String) : Call
  | mkdirAll (path : String) (perm : Nat) : Call
  | writeFile (name : String) (data : List Nat) (perm : Nat) : Call
  /-- The call `os.Create(name)`. -/
  | create (name : String) : Call
  /-- The call `http.Get(url)`. -/
  | httpGet (url : String) : Call
  /-- The call `io.Copy(out, resp.Body)`: `out` is the file opened by `os.Create`
  (`none` when that failed), `url` names the response whose body is read. -/
  | copy (out : Option String) (url : String) : Call
  /-- The call `out.Close()`. -/
  | closeFile (out : Option String) : Call
  /-- The call `resp.Body.Close()`. -/
  | closeBody (url : String) : Call
  /-- The call `cmd.Run()`. -/
  | run (cmd : Cmd) : Call
  deriving DecidableEq

/-- The two places where `processCommands` calls `applyCommand`: on the `test`
value (line 168) and on the directive itself (line 172). -/
inductive Site where
  | test : Site
  | main : Site
  deriving DecidableEq

/-- An entry of the log of a run. -/
inductive Event where
  /-- A call made to the outside. -/
  | call (c : Call) : Event
  /-- A `defer` statement was executed: `c` runs when the function returns. -/
  | deferred (c : Call) : Event
  /-- History entry: `processCommands` calls `applyCommand` at `site` while handling
  `identifier`. -/
  | applyCommand (site : Site) (identifier : String) : Event
  deriving DecidableEq

/-- A Go `error`: `none` is nil. -/
abbrev GoError := Option String

/-- Everything the program does not define itself.  `call` answers a call made in
outside state `s` with its error and the next state; `filepathDir` and
`jsonMarshal` are the library functions `filepath.Dir` and `json.Marshal`. -/
structure Sys (σ : Type) where
  call : Call → σ → GoError × σ
  filepathDir : String → String
  jsonMarshal : Json → List Nat

/-- What a run leaves behind: its result or the panic that ended it, the outside
state, and the log. -/
structure Outcome (σ α : Type) where
  result : Except Panic α
  state : σ
  events : List Event

/-- A piece of program: started in an outside state, it yields an outcome. -/
def Prog (σ α : Type) : Type := σ → Outcome σ α

/-- Normal completion with a value, without any call. -/
def Prog.ret {σ α : Type} (a : α) : Prog σ α := fun s => ⟨Except.ok a, s, []⟩

/-- Sequencing: a panic in the first part ends the run; the logs are concatenated. -/
def Prog.bind {σ α β : Type} (m : Prog σ α) (f : α → Prog σ β) : Prog σ β := fun s =>
  match (m s).result with
  | Except.ok a => ⟨(f a (m s).state).result, (f a (m s).state).state,
      (m s).events ++ (f a (m s).state).events⟩
  | Except.error p => ⟨Except.error p, (m s).state, (m s).events⟩

instance {σ : Type} : Monad (Prog σ) where
  pure := Prog.ret
  bind := Prog.bind

/-- A computation without calls: its value, or its panic. -/
def Prog.lift {σ α : Type} (e : Except Panic α) : Prog σ α := fun s => ⟨e, s, []⟩

/-- Writes one entry to the log. -/
def Prog.note {σ : Type} (e : Event) : Prog σ Unit := fun s => ⟨Except.ok (), s, [e]⟩

/-- Makes a call to the outside and logs it. -/
def Sys.perform {σ : Type} (sys : Sys σ) (c : Call) : Prog σ GoError := fun s =>
  ⟨Except.ok (sys.call c s).1, (sys.call c s).2, [Event.call c]⟩

/-- The call `fmt.Printf` with the formatted text; its result is dropped. -/
def Sys.printf {σ : Type} (sys : Sys σ) (text : String) : Prog σ Unit := fun s =>
  ⟨Except.ok (), (sys.call (Call.printf text) s).2, [Event.call (Call.printf text)]⟩

/-! ## The program -/

/-- The type assertion `v.(map[string]interface{})`. -/
def assertMap (v : Json) : Except Panic Fields :=
  match v with
  | Json.obj m => Except.ok m
  | other => Except.error (Panic.typeAssertion "map[string]interface \x7b\x7d" other.kind)

/-- The type assertion `v.(string)`. -/
def assertString (v : Json) : Except Panic String :=
  match v with
  | Json.str s => Except.ok s
  | other => Except.error (Panic.typeAssertion "string" other.kind)

/-- `unpackHash` (lines 225-230): when `hash[key]` is not nil it is asserted to be a
map and returned; otherwise the nil map is returned. -/
def unpackHash (key : String) (hash : Hash) : Except Panic Hash :=
  if (hash.index key).isNil then Except.ok none
  else (assertMap (hash.index key)).map some

/-- The loop of lines 203-206 over the keys of `env_map`, appending `name=value` to
`env`; each value is asserted to be a string. -/
def envEntries (env_map : Hash) : List String → List String → Except Panic (List String)
  | [], env => Except.ok env
  | env_name :: rest, env =>
    match assertString (env_map.index env_name) with
    | Except.ok v => envEntries env_map rest (env ++ [env_name ++ "=" ++ v])
    | Except.error p => Except.error p

/-- Lines 200-208: the value given to `cmd.Env`; `none` when `env` is nil, so that
the field keeps its zero value. -/
def commandEnv (hash : Fields) : Except Panic (Option (List String)) :=
  match unpackHash "env" (some hash) with
  | Except.error p => Except.error p
  | Except.ok none => Except.ok none
  | Except.ok (some env_map) => (envEntries (some env_map) (Hash.keys (some env_map)) []).map some

/-- Lines 209-211: the value given to `cmd.Dir`. -/
def commandDir (hash : Fields) : Except Panic String :=
  if (Hash.index (some hash) "cwd").isNil then Except.ok ""
  else assertString (Hash.index (some hash) "cwd")

/-- Lines 190-195 and 212-217: run the command; on an error print the two warnings
and return false. -/
def runCommand {σ : Type} (sys : Sys σ) (cmd : Cmd) (text : String) : Prog σ Bool := do
  let errChk ← sys.perform (Call.run cmd)
  match errChk with
  | some e => do
    sys.printf ("WARN: Command unsuccessful: " ++ text ++ "\n")
    sys.printf ("WARN: Command returned failure: " ++ e ++ "\n")
    pure false
  | none => pure true

/-- `applyCommand` (lines 184-223) on the value `thing` wraps. -/
def applyCommand {σ : Type} (sys : Sys σ) (thing : Json) : Prog σ Bool :=
  match thing with
  | Json.str s => runCommand sys ⟨"sh", ["-c", s], none, ""⟩ s
  | Json.obj hash => do
    let command ← Prog.lift (assertString (Hash.index (some hash) "command"))
    let env ← Prog.lift (commandEnv hash)
    let dir ← Prog.lift (commandDir hash)
    runCommand sys ⟨"sh", ["-c", command], env, dir⟩ command
  | other => do
    sys.printf ("WARN: Unknown command type. Cannot process - " ++ other.kind ++ "\n")
    pure false

/-- Lines 162-169 of the loop of `processCommands`: the value of `process` for one
identifier, true unless the directive carries a `test` and `applyCommand` on it
returns false. -/
def commandTest {σ : Type} (sys : Sys σ) (commands : Hash) (commandIdentifier : String) :
    Prog σ Bool := do
  let commandInfo ← Prog.lift (unpackHash commandIdentifier commands)
  let test := commandInfo.index "test"
  if test.isNil then pure true
  else do
    Prog.note (Event.applyCommand Site.test commandIdentifier)
    applyCommand sys test

/-- The body of the loop of `processCommands` (lines 162-178) for one identifier.
The value is false when the body executes `return false`, true when it falls
through to the next iteration. -/
def commandStep {σ : Type} (sys : Sys σ) (commands : Hash) (commandIdentifier : String) :
    Prog σ Bool := do
  let process ← commandTest sys commands commandIdentifier
  if process then do
    Prog.note (Event.applyCommand Site.main commandIdentifier)
    let done ← applyCommand sys (commands.index commandIdentifier)
    if done then pure true
    else do
      sys.printf ("ERROR: Command failed [" ++ commandIdentifier ++ "]\n")
      pure false
  else do
    sys.printf ("WARN: Command skipped due to test result [" ++ commandIdentifier ++ "]\n")
    pure true

/-- The loop of lines 161-181 over the sorted identifiers. -/
def commandsLoop {σ : Type} (sys : Sys σ) (commands : Hash) : List String → Prog σ Bool
  | [] => pure true
  | commandIdentifier :: rest => do
    let next ← commandStep sys commands commandIdentifier
    if next then commandsLoop sys commands rest else pure false

/-- `processCommands` (lines 149-182). -/
def processCommands {σ : Type} (sys : Sys σ) (commands : Hash) : Prog σ Bool :=
  commandsLoop sys commands (sortStrings commands.keys)

/-- The expression `strings.Replace(s, "\"", "", -1)`: `s` without its double-quote
characters. -/
def stripQuotes (s : String) : String := String.mk (s.data.filter (fun c => c ≠ Char.ofNat 34))

/-- Lines 139-143: the `source` branch of `processFiles`.  The errors of `os.Create`
and `http.Get` are dropped; when `http.Get` fails `resp` is nil and reading
`resp.Body` for the `defer` panics. -/
def fetchSource {σ : Type} (sys : Sys σ) (fileName : String) (source : Json) : Prog σ Unit := do
  let createErr ← sys.perform (Call.create fileName)
  let out : Option String := if createErr.isNone then some fileName else none
  Prog.note (Event.deferred (Call.closeFile out))
  let url ← Prog.lift ((assertString source).map stripQuotes)
  let getErr ← sys.perform (Call.httpGet url)
  if getErr.isSome then Prog.lift (Except.error Panic.nilDereference)
  else do
    Prog.note (Event.deferred (Call.closeBody url))
    let _ ← sys.perform (Call.copy out url)
    pure ()

/-- Lines 124-137: the `content` branch of `processFiles`.  The value is false when
the branch executes `return false`. -/
def writeContent {σ : Type} (sys : Sys σ) (fileName : String) (content : Json) : Prog σ Bool :=
  match content with
  | Json.str text => do
    let errChk ← sys.perform (Call.writeFile fileName (utf8 text) 0o600)
    pure errChk.isNone
  | Json.obj fields => do
    let errChk ← sys.perform (Call.writeFile fileName (sys.jsonMarshal (Json.obj fields)) 0o600)
    pure errChk.isNone
  | other => do
    sys.printf ("WARN: Unknown value type. Cannot process - " ++ other.kind ++ "\n")
    pure true

/-- The body of the loop of `processFiles` (lines 118-144) for one file name.  The
value is false when the body executes `return false`. -/
def fileStep {σ : Type} (sys : Sys σ) (files : Hash) (fileName : String) : Prog σ Bool := do
  let errChk ← sys.perform (Call.mkdirAll (sys.filepathDir fileName) 0o755)
  if errChk.isSome then pure false
  else do
    let fileInfo ← Prog.lift (unpackHash fileName files)
    if !(fileInfo.index "content").isNil then
      writeContent sys fileName (fileInfo.index "content")
    else if !(fileInfo.index "source").isNil then do
      fetchSource sys fileName (fileInfo.index "source")
      pure true
    else pure true

/-- The loop of lines 117-146 over the file names. -/
def filesLoop {σ : Type} (sys : Sys σ) (files : Hash) : List String → Prog σ Bool
  | [] => pure true
  | fileName :: rest => do
    let next ← fileStep sys files fileName
    if next then filesLoop sys files rest else pure false

/-- The calls registered by the `defer` statements of a log, last registered first. -/
def deferredCalls : List Event → List Call
  | [] => []
  | Event.deferred c :: rest => deferredCalls rest ++ [c]
  | _ :: rest => deferredCalls rest

/-- Makes the given calls one after the other, dropping their results. -/
def performAll {σ : Type} (sys : Sys σ) : List Call → σ → σ × List Event
  | [], s => (s, [])
  | c :: rest, s =>
    ((performAll sys rest (sys.call c s).2).1, Event.call c :: (performAll sys rest (sys.call c s).2).2)

/-- Function exit: the deferred calls of the body run, last registered first, whether
the body returned or panicked. -/
def withDefers {σ α : Type} (sys : Sys σ) (body : Prog σ α) : Prog σ α := fun s =>
  ⟨(body s).result, (performAll sys (deferredCalls (body s).events) (body s).state).1,
    (body s).events ++ (performAll sys (deferredCalls (body s).events) (body s).state).2⟩

/-- `processFiles` (lines 115-147). -/
def processFiles {σ : Type} (sys : Sys σ) (files : Hash) : Prog σ Bool :=
  withDefers sys (filesLoop sys files files.keys)

/-- `processConfig` (lines 106-112). -/
def processConfig {σ : Type} (sys : Sys σ) (config : Hash) : Prog σ Bool := do
  let files ← Prog.lift (unpackHash "files" config)
  if files.isSome then do
    let _ ← processFiles sys files
    pure true
  else pure true

/-- The function `main` from line 85 on: `metaface` is what `json.Unmarshal` stored. -/
def main {σ : Type} (sys : Sys σ) (metaface : Json) : Prog σ Unit := do
  let topLevel ← Prog.lift (assertMap metaface)
  let metaInit ← Prog.lift (unpackHash "AWS::CloudFormation::Init" (some topLevel))
  let config ← Prog.lift (unpackHash "config" metaInit)
  if config.isSome then do
    sys.printf "Processing config section... \n"
    let _ ← processConfig sys config
    sys.printf "  ----> [config section] DONE\n"
  let commands ← Prog.lift (unpackHash "commands" config)
  if commands.isSome then do
    sys.printf "Processing commands section... \n"
    let _ ← processCommands sys commands
    sys.printf "  ----> [commands section] DONE\n"

/-! ## Reading the log -/

/-- The identifiers on which `processCommands` called `applyCommand`, in the order of
the calls; an identifier whose test and directive were both applied is listed twice. -/
def calledIds (events : List Event) : List String :=
  events.filterMap fun e =>
    match e with
    | Event.applyCommand _ identifier => some identifier
    | _ => none

/-- The identifiers on which `applyCommand` was called at the given site, in order. -/
def calledAt (site : Site) (events : List Event) : List String :=
  events.filterMap fun e =>
    match e with
    | Event.applyCommand at_ identifier => if at_ = site then some identifier else none
    | _ => none

/-- The commands given to `cmd.Run()`, in order. -/
def runCmds (events : List Event) : List Cmd :=
  events.filterMap fun e =>
    match e with
    | Event.call (Call.run cmd) => some cmd
    | _ => none

/-- The `exec.Cmd` that `applyCommand` builds for `thing` and hands to `cmd.Run()`
(line 189 for a string, lines 197-211 for a map); `none` when `applyCommand` runs no
command on `thing`: a type assertion panics first, or `thing` is neither a string nor
a map. -/
def cmdOf (thing : Json) : Option Cmd :=
  match thing with
  | Json.str s => some ⟨"sh", ["-c", s], none, ""⟩
  | Json.obj hash =>
    match assertString (Hash.index (some hash) "command"), commandEnv hash, commandDir hash with
    | Except.ok command, Except.ok env, Except.ok dir => some ⟨"sh", ["-c", command], env, dir⟩
    | _, _, _ => none
  | _ => none

/-- The value of `test` at line 165 for an identifier: `commandInfo["test"]`, nil when
`unpackHash` gives no `commandInfo`. -/
def testOf (commands : Hash) (commandIdentifier : String) : Json :=
  match unpackHash commandIdentifier commands with
  | Except.ok commandInfo => commandInfo.index "test"
  | Except.error _ => Json.null

/-- The log entries of running the command `applyCommand` builds, if it builds one. -/
def runEvents (cmd : Option Cmd) : List Event :=
  cmd.toList.map fun c => Event.call (Call.run c)

/-- Holds for the entries of a log that say which command was run for which
identifier: the calls of `applyCommand` and the calls `cmd.Run()`. -/
def Event.onTrail : Event → Bool
  | Event.applyCommand _ _ => true
  | Event.call (Call.run _) => true
  | _ => false

/-- A log without its printed lines and file calls: the calls of `applyCommand`, each
followed by the commands run during it. -/
def trail (events : List Event) : List Event := events.filter Event.onTrail

/-- Everything the iteration for one identifier can apply and run, in order: the test
of its directive, when it has one, with the command built from it, then the
directive itself with the command built from it. -/
def block (commands : Hash) (commandIdentifier : String) : List Event :=
  (if (testOf commands commandIdentifier).isNil then []
    else Event.applyCommand Site.test commandIdentifier ::
      runEvents (cmdOf (testOf commands commandIdentifier))) ++
    Event.applyCommand Site.main commandIdentifier ::
      runEvents (cmdOf (commands.index commandIdentifier))

/-- The file a call creates or writes into, if it does so. -/
def Call.target : Call → Option String
  | Call.writeFile name _ _ => some name
  | Call.create name => some name
  | Call.copy out _ => out
  | _ => none

/-- Holds for a log entry made while handling file `name` that creates or writes no
other file: a call targets `name` or no file, and a deferred call targets no file. -/
def Event.within (name : String) : Event → Prop
  | Event.call c => c.target = none ∨ c.target = some name
  | Event.deferred c => c.target = none
  | Event.applyCommand _ _ => True

instance (name : String) (e : Event) : Decidable (e.within name) := by
  cases e <;> unfold Event.within <;> infer_instance

/-- The string held by a JSON string value. -/
def Json.text : Json → String
  | Json.str s => s
  | _ => ""

/-! ## A machine for the examples -/

/-- The directory part of a slash-separated path, as `filepath.Dir` gives it for a
path without `.` or doubled or trailing slashes. -/
def dirOf (path : String) : String :=
  let dir := ((path.data.reverse.dropWhile fun c => c ≠ Char.ofNat 47).drop 1).reverse
  if dir.isEmpty then (if path.data.head? = some (Char.ofNat 47) then "/" else ".")
  else String.mk dir

/-- A machine without state: a command fails exactly when its shell text is
`exit 1`, a directory cannot be made exactly when it is `/ro` and every other call
succeeds. -/
def demoSys : Sys Unit where
  call c s :=
    match c with
    | Call.run cmd => if cmd.args = ["-c", "exit 1"] then (some "exit status 1", s) else (none, s)
    | Call.mkdirAll path _ =>
      if path = "/ro" then (some "mkdir /ro: read-only file system", s) else (none, s)
    | _ => (none, s)
  filepathDir := dirOf
  jsonMarshal := fun _ => []

/-- A machine that remembers the directories made: `mkdir /x` records `/x`,
`touch /x/y` fails unless `/x` is recorded, and every other call succeeds. -/
def dirSys : Sys (List String) where
  call c s :=
    match c with
    | Call.run cmd =>
      if cmd.args = ["-c", "mkdir /x"] then (none, "/x" :: s)
      else if cmd.args = ["-c", "touch /x/y"] then
        (if "/x" ∈ s then (none, s) else (some "exit status 1", s))
      else (none, s)
    | _ => (none, s)
  filepathDir := dirOf
  jsonMarshal := fun _ => []

/-! ## Inputs for the examples -/

/-- Two object directives, listed out of order; the command of the second in sorted
order succeeds only after the first has run. -/
def dependentCommands : Hash :=
  some [("20-touch", Json.obj [("command", Json.str "touch /x/y")]),
    ("10-mkdir", Json.obj [("command", Json.str "mkdir /x")])]


/-- Two object directives, listed out of order. -/
def orderedCommands : Hash :=
  some [("20-b", Json.obj [("command", Json.str "echo b")]),
    ("10-a", Json.obj [("command", Json.str "echo a")])]

/-- Three object directives; the command of the second in sorted order fails. -/
def failingCommands : Hash :=
  some [("30-c", Json.obj [("command", Json.str "echo c")]),
    ("10-a", Json.obj [("command", Json.str "echo a")]),
    ("20-b", Json.obj [("command", Json.str "exit 1")])]

/-- Two object directives; the test of the first in sorted order fails. -/
def gatedCommands : Hash :=
  some [("20-b", Json.obj [("command", Json.str "echo b")]),
    ("10-a", Json.obj [("command", Json.str "echo a"), ("test", Json.str "exit 1")])]

/-- The commands map `{"05-second": "exit 1", "10-first": "echo hi"}` of plain
strings. -/
def stringCommands : Hash :=
  some [("05-second", Json.str "exit 1"), ("10-first", Json.str "echo hi")]

/-- The commands map `{"10-a": 5, "20-b": {"command": "echo b"}}`. -/
def numberCommands : Hash :=
  some [("10-a", Json.num 5), ("20-b", Json.obj [("command", Json.str "echo b")])]

/-- The directive `{"command": "env", "env": {"A": "1", "B": "2"}}`. -/
def envDirective : Fields :=
  [("command", Json.str "env"), ("env", Json.obj [("A", Json.str "1"), ("B", Json.str "2")])]

/-- A files map whose one directive has both `content` and `source`. -/
def motdFiles : Hash :=
  some [("/etc/motd",
    Json.obj [("content", Json.str "hi"), ("source", Json.str "http://example.com/motd")])]

/-- A config whose one file lies in the directory `/ro`, with one command. -/
def readOnlyConfig : Fields :=
  [("files", Json.obj [("/ro/motd", Json.obj [("content", Json.str "hi")])]),
    ("commands", Json.obj [("10-a", Json.obj [("command", Json.str "echo a")])])]

/-- The metadata document holding `readOnlyConfig`. -/
def readOnlyDocument : Json :=
  Json.obj [("AWS::CloudFormation::Init", Json.obj [("config", Json.obj readOnlyConfig)])]

/-! ## Running programs: basic equations -/

section Runs
variable {σ α β : Type}

@[simp] theorem Prog.pure_apply (a : α) (s : σ) :
    (pure a : Prog σ α) s = ⟨Except.ok a, s, []⟩ := rfl

@[simp] theorem Prog.lift_apply (e : Except Panic α) (s : σ) :
    (Prog.lift e : Prog σ α) s = ⟨e, s, []⟩ := rfl

@[simp] theorem Prog.note_apply (e : Event) (s : σ) :
    (Prog.note e : Prog σ Unit) s = ⟨Except.ok (), s, [e]⟩ := rfl

@[simp] theorem Sys.perform_apply (sys : Sys σ) (c : Call) (s : σ) :
    sys.perform c s = ⟨Except.ok (sys.call c s).1, (sys.call c s).2, [Event.call c]⟩ := rfl

@[simp] theorem Sys.printf_apply (sys : Sys σ) (text : String) (s : σ) :
    sys.printf text s =
      ⟨Except.ok (), (sys.call (Call.printf text) s).2, [Event.call (Call.printf text)]⟩ := rfl

theorem Prog.bind_apply (m : Prog σ α) (f : α → Prog σ β) (s : σ) :
    (m >>= f) s = Prog.bind m f s := rfl

theorem Prog.bind_ok {m : Prog σ α} {f : α → Prog σ β} {s s1 : σ} {a : α} {e1 : List Event}
    (h : m s = ⟨Except.ok a, s1, e1⟩) :
    (m >>= f) s = ⟨(f a s1).result, (f a s1).state, e1 ++ (f a s1).events⟩ := by
  simp [Prog.bind_apply, Prog.bind, h]

theorem Prog.bind_error {m : Prog σ α} {f : α → Prog σ β} {s : σ} {p : Panic}
    (h : (m s).result = Except.error p) :
    (m >>= f) s = ⟨Except.error p, (m s).state, (m s).events⟩ := by
  simp [Prog.bind_apply, Prog.bind, h]

end Runs

/-! ## `unpackHash` -/

theorem index_of_assoc_none (key : String) (m : Fields) (h : assoc key m = none) :
    Hash.index (some m) key = Json.null := by
  simp [Hash.index, h]

theorem unpackHash_of_null (key : String) (hash : Hash) (h : hash.index key = Json.null) :
    unpackHash key hash = Except.ok none := by
  simp [unpackHash, h, Json.isNil]

theorem unpackHash_of_obj (key : String) (hash : Hash) (child : Fields)
    (h : hash.index key = Json.obj child) : unpackHash key hash = Except.ok (some child) := by
  simp [unpackHash, h, Json.isNil, assertMap, Except.map]

/-- C9. `unpackHash key node` returns the child object stored at `key` when the
node holds an object there, and returns the nil map, without a panic, when the node
is nil, is empty or has no entry for `key`; so an object child is never given as
absent, and absence never ends in a panic. -/
theorem unpackHash_descends (key : String) (node : Hash) :
    (∀ child, node.index key = Json.obj child →
        unpackHash key node = Except.ok (some child) ∧ unpackHash key node ≠ Except.ok none) ∧
    ((node = none ∨ node = some [] ∨ ∃ m, node = some m ∧ assoc key m = none) →
        unpackHash key node = Except.ok none) := by
  refine ⟨fun child h => ?_, fun h => ?_⟩
  · rw [unpackHash_of_obj key node child h]
    simp
  · apply unpackHash_of_null
    rcases h with h | h | ⟨m, h, hm⟩
    · subst h; rfl
    · subst h; rfl
    · subst h; exact index_of_assoc_none key m hm

theorem unpackHash_descends_witness :
    (unpackHash "config" (some [("config", Json.obj [("files", Json.null)])]) =
        Except.ok (some [("files", Json.null)]) ∧
      unpackHash "config" (some [("config", Json.obj [("files", Json.null)])]) ≠
        Except.ok none) ∧
    unpackHash "config" (some [("other", Json.str "x")]) = Except.ok none :=
  ⟨(unpackHash_descends "config" (some [("config", Json.obj [("files", Json.null)])])).1
      [("files", Json.null)] rfl,
    (unpackHash_descends "config" (some [("other", Json.str "x")])).2
      (Or.inr (Or.inr ⟨[("other", Json.str "x")], rfl, by simp [assoc]⟩))⟩

/-! ## `main` -/

/-- C8. A metadata document (a JSON object) in which `AWS::CloudFormation::Init` is
missing (or null), or is an object in which `config` is missing (or null), makes
`main` return normally without a single call: the outside state is unchanged and
the log is empty, so nothing is printed, written, fetched or run. -/
theorem main_without_config {σ : Type} (sys : Sys σ) (topLevel : Fields) (s : σ)
    (h : Hash.index (some topLevel) "AWS::CloudFormation::Init" = Json.null ∨
      ∃ m, Hash.index (some topLevel) "AWS::CloudFormation::Init" = Json.obj m ∧
        Hash.index (some m) "config" = Json.null) :
    main sys (Json.obj topLevel) s = ⟨Except.ok (), s, []⟩ := by
  have hconfig : ∃ metaInit, unpackHash "AWS::CloudFormation::Init" (some topLevel) =
      Except.ok metaInit ∧ unpackHash "config" metaInit = Except.ok none := by
    rcases h with h | ⟨m, h, hm⟩
    · exact ⟨none, unpackHash_of_null _ _ h, unpackHash_of_null _ _ rfl⟩
    · exact ⟨some m, unpackHash_of_obj _ _ m h, unpackHash_of_null _ _ hm⟩
  obtain ⟨metaInit, h1, h2⟩ := hconfig
  have h3 : unpackHash "commands" none = Except.ok none := unpackHash_of_null _ _ rfl
  simp [main, Prog.bind_apply, Prog.bind, assertMap, h1, h2, h3]

theorem main_without_config_witness :
    main demoSys (Json.obj [("AWS::CloudFormation::Init", Json.obj [("other", Json.null)])]) () =
      ⟨Except.ok (), (), []⟩ :=
  main_without_config demoSys _ () (Or.inr ⟨[("other", Json.null)], rfl, rfl⟩)

/-! ## The byte order is a linear order on strings -/

theorem utf8EncodeNat_append_inj (a b : Nat) (x y : List Nat)
    (h : utf8EncodeNat a ++ x = utf8EncodeNat b ++ y) : a = b ∧ x = y := by
  unfold utf8EncodeNat at h
  split_ifs at h <;> simp at h <;>
    first
    | (exfalso; omega)
    | exact ⟨by omega, by tauto⟩

theorem char_toNat_inj (c d : Char) (h : c.toNat = d.toNat) : c = d := by
  apply Char.ext
  apply UInt32.ext
  exact h

theorem utf8Chars_inj : ∀ (l m : List Char), utf8Chars l = utf8Chars m → l = m
  | [], [] => fun _ => rfl
  | [], d :: m => fun h => by
    simp only [utf8Chars, utf8EncodeNat] at h
    split_ifs at h <;> simp at h
  | c :: l, [] => fun h => by
    simp only [utf8Chars, utf8EncodeNat] at h
    split_ifs at h <;> simp at h
  | c :: l, d :: m => fun h => by
    obtain ⟨h1, h2⟩ := utf8EncodeNat_append_inj _ _ _ _ h
    rw [char_toNat_inj c d h1, utf8Chars_inj l m h2]

theorem utf8_inj (a b : String) (h : utf8 a = utf8 b) : a = b := by
  cases a; cases b
  simp only [utf8] at h
  rw [utf8Chars_inj _ _ h]

theorem bytesLE_total : ∀ l m : List Nat, bytesLE l m = true ∨ bytesLE m l = true
  | [], _ => Or.inl rfl
  | _ :: _, [] => Or.inr rfl
  | a :: l, b :: m => by
    simp only [bytesLE, Bool.or_eq_true, Bool.and_eq_true, decide_eq_true_eq]
    rcases bytesLE_total l m with h | h <;> rcases Nat.lt_trichotomy a b with h' | h' | h' <;>
      simp [h, h']

theorem bytesLE_trans : ∀ l m n : List Nat, bytesLE l m = true → bytesLE m n = true →
    bytesLE l n = true
  | [], _, _ => fun _ _ => rfl
  | _ :: _, [], _ => fun h _ => by simp [bytesLE] at h
  | _ :: _, _ :: _, [] => fun _ h => by simp [bytesLE] at h
  | a :: l, b :: m, c :: n => by
    simp only [bytesLE, Bool.or_eq_true, Bool.and_eq_true, decide_eq_true_eq]
    rintro (h1 | ⟨h1, h1'⟩) (h2 | ⟨h2, h2'⟩)
    · left; omega
    · left; omega
    · left; omega
    · right; exact ⟨by omega, bytesLE_trans l m n h1' h2'⟩

theorem bytesLE_antisymm : ∀ l m : List Nat, bytesLE l m = true → bytesLE m l = true → l = m
  | [], [] => fun _ _ => rfl
  | [], _ :: _ => fun _ h => by simp [bytesLE] at h
  | _ :: _, [] => fun h _ => by simp [bytesLE] at h
  | a :: l, b :: m => by
    simp only [bytesLE, Bool.or_eq_true, Bool.and_eq_true, decide_eq_true_eq]
    rintro (h1 | ⟨h1, h1'⟩) (h2 | ⟨h2, h2'⟩)
    · omega
    · omega
    · omega
    · rw [h1, bytesLE_antisymm l m h1' h2']

instance : IsTotal String StrLE := ⟨fun a b => bytesLE_total (utf8 a) (utf8 b)⟩

instance : IsTrans String StrLE := ⟨fun a b c => bytesLE_trans (utf8 a) (utf8 b) (utf8 c)⟩

instance : IsAntisymm String StrLE :=
  ⟨fun a b h1 h2 => utf8_inj a b (bytesLE_antisymm _ _ h1 h2)⟩

theorem sortStrings_sorted (l : List String) : (sortStrings l).Sorted StrLE :=
  List.sorted_insertionSort StrLE l

theorem sortStrings_perm (l : List String) : (sortStrings l).Perm l :=
  List.perm_insertionSort StrLE l

theorem sortStrings_unique (l m : List String) (hp : m.Perm l) (hs : m.Sorted StrLE) :
    m = sortStrings l :=
  List.eq_of_perm_of_sorted (hp.trans (sortStrings_perm l).symm) hs (sortStrings_sorted l)

theorem keys_nodup (hash : Hash) : hash.keys.Nodup := by
  cases hash with
  | none => exact List.nodup_nil
  | some m => exact List.nodup_dedup _

theorem sortedKeys_nodup (hash : Hash) : (sortStrings hash.keys).Nodup :=
  (sortStrings_perm hash.keys).nodup_iff.2 (keys_nodup hash)

theorem sortStrings_congr (l m : List String) (hl : l.Nodup) (hm : m.Nodup)
    (h : ∀ k, k ∈ l ↔ k ∈ m) : sortStrings l = sortStrings m :=
  sortStrings_unique m (sortStrings l)
    ((sortStrings_perm l).trans ((List.perm_ext_iff_of_nodup hl hm).2 h)) (sortStrings_sorted l)

/-! ## `applyCommand` and the loop of `processCommands` -/

section Commands
variable {σ : Type} (sys : Sys σ)

theorem runCommand_apply (cmd : Cmd) (text : String) (s : σ) :
    runCommand sys cmd text s =
      match (sys.call (Call.run cmd) s).1 with
      | none => ⟨Except.ok true, (sys.call (Call.run cmd) s).2, [Event.call (Call.run cmd)]⟩
      | some e =>
        ⟨Except.ok false,
          (sys.call (Call.printf ("WARN: Command returned failure: " ++ e ++ "\n"))
            (sys.call (Call.printf ("WARN: Command unsuccessful: " ++ text ++ "\n"))
              (sys.call (Call.run cmd) s).2).2).2,
          [Event.call (Call.run cmd),
            Event.call (Call.printf ("WARN: Command unsuccessful: " ++ text ++ "\n")),
            Event.call (Call.printf ("WARN: Command returned failure: " ++ e ++ "\n"))]⟩ := by
  simp only [runCommand, Prog.bind_apply, Prog.bind, Sys.perform_apply]
  cases h : (sys.call (Call.run cmd) s).1 <;> simp [Prog.bind_apply, Prog.bind]

theorem runCmds_runCommand (cmd : Cmd) (text : String) (s : σ) :
    runCmds (runCommand sys cmd text s).events = [cmd] := by
  rw [runCommand_apply]
  cases (sys.call (Call.run cmd) s).1 <;> simp [runCmds]

theorem runCommand_calls (cmd : Cmd) (text : String) (s : σ) :
    ∀ e ∈ (runCommand sys cmd text s).events, ∃ c, e = Event.call c := by
  rw [runCommand_apply]
  cases (sys.call (Call.run cmd) s).1 <;> simp

theorem applyCommand_calls (thing : Json) (s : σ) :
    ∀ e ∈ (applyCommand sys thing s).events, ∃ c, e = Event.call c := by
  cases thing with
  | str t => exact runCommand_calls sys _ _ s
  | obj hash =>
    simp only [applyCommand, Prog.bind_apply, Prog.bind, Prog.lift_apply]
    cases assertString (Hash.index (some hash) "command") with
    | error p => simp
    | ok command =>
      cases commandEnv hash with
      | error p => simp
      | ok env =>
        cases commandDir hash with
        | error p => simp
        | ok dir => simpa using runCommand_calls sys _ _ s
  | null => simp [applyCommand, Prog.bind_apply, Prog.bind]
  | bool b => simp [applyCommand, Prog.bind_apply, Prog.bind]
  | num n => simp [applyCommand, Prog.bind_apply, Prog.bind]
  | arr items => simp [applyCommand, Prog.bind_apply, Prog.bind]

theorem calledIds_of_calls (events : List Event) (h : ∀ e ∈ events, ∃ c, e = Event.call c) :
    calledIds events = [] := by
  simp only [calledIds, List.filterMap_eq_nil_iff]
  intro e he
  obtain ⟨c, rfl⟩ := h e he
  rfl

theorem calledAt_of_calls (site : Site) (events : List Event)
    (h : ∀ e ∈ events, ∃ c, e = Event.call c) : calledAt site events = [] := by
  simp only [calledAt, List.filterMap_eq_nil_iff]
  intro e he
  obtain ⟨c, rfl⟩ := h e he
  rfl

theorem calledIds_append (a b : List Event) : calledIds (a ++ b) = calledIds a ++ calledIds b := by
  simp [calledIds]

theorem calledAt_append (site : Site) (a b : List Event) :
    calledAt site (a ++ b) = calledAt site a ++ calledAt site b := by
  simp [calledAt]

theorem calledIds_applyCommand (thing : Json) (s : σ) :
    calledIds (applyCommand sys thing s).events = [] :=
  calledIds_of_calls _ (applyCommand_calls sys thing s)

theorem calledAt_applyCommand (site : Site) (thing : Json) (s : σ) :
    calledAt site (applyCommand sys thing s).events = [] :=
  calledAt_of_calls site _ (applyCommand_calls sys thing s)

theorem runCmds_append (a b : List Event) : runCmds (a ++ b) = runCmds a ++ runCmds b := by
  simp [runCmds]

theorem runCmds_cons_applyCommand (site : Site) (k : String) (events : List Event) :
    runCmds (Event.applyCommand site k :: events) = runCmds events := by
  simp [runCmds]

theorem runCmds_applyCommand_of_true (thing : Json) (s : σ)
    (h : (applyCommand sys thing s).result = Except.ok true) :
    (runCmds (applyCommand sys thing s).events).length = 1 := by
  cases thing with
  | str t => simp [applyCommand, runCmds_runCommand]
  | obj hash =>
    simp only [applyCommand, Prog.bind_apply, Prog.bind, Prog.lift_apply] at h ⊢
    cases hc : assertString (Hash.index (some hash) "command") with
    | error p => simp [hc] at h
    | ok command =>
      cases he : commandEnv hash with
      | error p => simp [hc, he] at h
      | ok env =>
        cases hd : commandDir hash with
        | error p => simp [hc, he, hd] at h
        | ok dir => simp [runCmds_runCommand]
  | null => simp [applyCommand, Prog.bind_apply, Prog.bind] at h
  | bool b => simp [applyCommand, Prog.bind_apply, Prog.bind] at h
  | num n => simp [applyCommand, Prog.bind_apply, Prog.bind] at h
  | arr items => simp [applyCommand, Prog.bind_apply, Prog.bind] at h

/-! ### One iteration -/

theorem commandTest_of_panic {commands : Hash} {k : String} {p : Panic} (s : σ)
    (h : unpackHash k commands = Except.error p) :
    commandTest sys commands k s = ⟨Except.error p, s, []⟩ := by
  simp [commandTest, Prog.bind_apply, Prog.bind, h]

theorem commandTest_of_no_test {commands info : Hash} {k : String} (s : σ)
    (h : unpackHash k commands = Except.ok info) (ht : (info.index "test").isNil = true) :
    commandTest sys commands k s = ⟨Except.ok true, s, []⟩ := by
  simp [commandTest, Prog.bind_apply, Prog.bind, h, ht]

theorem commandTest_of_test {commands info : Hash} {k : String} (s : σ)
    (h : unpackHash k commands = Except.ok info) (ht : (info.index "test").isNil = false) :
    commandTest sys commands k s =
      ⟨(applyCommand sys (info.index "test") s).result,
        (applyCommand sys (info.index "test") s).state,
        Event.applyCommand Site.test k :: (applyCommand sys (info.index "test") s).events⟩ := by
  simp [commandTest, Prog.bind_apply, Prog.bind, h, ht]

theorem commandStep_of_test_panic {commands : Hash} {k : String} {p : Panic} {s : σ}
    (h : (commandTest sys commands k s).result = Except.error p) :
    commandStep sys commands k s =
      ⟨Except.error p, (commandTest sys commands k s).state,
        (commandTest sys commands k s).events⟩ := by
  simp [commandStep, Prog.bind_apply, Prog.bind, h]

theorem commandStep_of_test_false {commands : Hash} {k : String} {s s1 : σ} {e1 : List Event}
    (h : commandTest sys commands k s = ⟨Except.ok false, s1, e1⟩) :
    commandStep sys commands k s =
      ⟨Except.ok true,
        (sys.call (Call.printf ("WARN: Command skipped due to test result [" ++ k ++ "]\n")) s1).2,
        e1 ++ [Event.call
          (Call.printf ("WARN: Command skipped due to test result [" ++ k ++ "]\n"))]⟩ := by
  simp [commandStep, Prog.bind_apply, Prog.bind, h]

theorem commandStep_of_main_panic {commands : Hash} {k : String} {s s1 : σ} {e1 : List Event}
    {p : Panic} (h : commandTest sys commands k s = ⟨Except.ok true, s1, e1⟩)
    (hm : (applyCommand sys (commands.index k) s1).result = Except.error p) :
    commandStep sys commands k s =
      ⟨Except.error p, (applyCommand sys (commands.index k) s1).state,
        e1 ++ Event.applyCommand Site.main k :: (applyCommand sys (commands.index k) s1).events⟩ := by
  simp [commandStep, Prog.bind_apply, Prog.bind, h, hm]

theorem commandStep_of_main_true {commands : Hash} {k : String} {s s1 s2 : σ}
    {e1 e2 : List Event} (h : commandTest sys commands k s = ⟨Except.ok true, s1, e1⟩)
    (hm : applyCommand sys (commands.index k) s1 = ⟨Except.ok true, s2, e2⟩) :
    commandStep sys commands k s =
      ⟨Except.ok true, s2, e1 ++ Event.applyCommand Site.main k :: e2⟩ := by
  simp [commandStep, Prog.bind_apply, Prog.bind, h, hm]

theorem commandStep_of_main_false {commands : Hash} {k : String} {s s1 s2 : σ}
    {e1 e2 : List Event} (h : commandTest sys commands k s = ⟨Except.ok true, s1, e1⟩)
    (hm : applyCommand sys (commands.index k) s1 = ⟨Except.ok false, s2, e2⟩) :
    commandStep sys commands k s =
      ⟨Except.ok false, (sys.call (Call.printf ("ERROR: Command failed [" ++ k ++ "]\n")) s2).2,
        e1 ++ Event.applyCommand Site.main k :: (e2 ++
          [Event.call (Call.printf ("ERROR: Command failed [" ++ k ++ "]\n"))])⟩ := by
  simp [commandStep, Prog.bind_apply, Prog.bind, h, hm]

/-! ### The loop -/

theorem commandsLoop_cons_true {commands : Hash} {k : String} (rest : List String)
    {s s1 : σ} {e1 : List Event} (h : commandStep sys commands k s = ⟨Except.ok true, s1, e1⟩) :
    commandsLoop sys commands (k :: rest) s =
      ⟨(commandsLoop sys commands rest s1).result, (commandsLoop sys commands rest s1).state,
        e1 ++ (commandsLoop sys commands rest s1).events⟩ := by
  simp [commandsLoop, Prog.bind_apply, Prog.bind, h]

theorem commandsLoop_cons_false {commands : Hash} {k : String} (rest : List String)
    {s s1 : σ} {e1 : List Event} (h : commandStep sys commands k s = ⟨Except.ok false, s1, e1⟩) :
    commandsLoop sys commands (k :: rest) s = ⟨Except.ok false, s1, e1⟩ := by
  simp [commandsLoop, Prog.bind_apply, Prog.bind, h]

theorem commandsLoop_cons_panic {commands : Hash} {k : String} (rest : List String)
    {s : σ} {p : Panic} (h : (commandStep sys commands k s).result = Except.error p) :
    commandsLoop sys commands (k :: rest) s =
      ⟨Except.error p, (commandStep sys commands k s).state,
        (commandStep sys commands k s).events⟩ := by
  simp [commandsLoop, Prog.bind_apply, Prog.bind, h]

/-- The three ways an iteration can end. -/
theorem outcome_cases {α : Type} (o : Outcome σ α) :
    (∃ p, o.result = Except.error p) ∨ ∃ a, o = ⟨Except.ok a, o.state, o.events⟩ := by
  obtain ⟨r, st, ev⟩ := o
  cases r with
  | error p => exact Or.inl ⟨p, rfl⟩
  | ok a => exact Or.inr ⟨a, rfl⟩

theorem commandsLoop_append (commands : Hash) (post : List String) :
    ∀ (pre : List String) (s s1 : σ) (e1 : List Event),
      commandsLoop sys commands pre s = ⟨Except.ok true, s1, e1⟩ →
      commandsLoop sys commands (pre ++ post) s =
        ⟨(commandsLoop sys commands post s1).result, (commandsLoop sys commands post s1).state,
          e1 ++ (commandsLoop sys commands post s1).events⟩
  | [], s, s1, e1 => fun h => by
    simp only [commandsLoop, Prog.pure_apply, Outcome.mk.injEq] at h
    obtain ⟨-, rfl, rfl⟩ := h
    simp
  | k :: pre, s, s1, e1 => fun h => by
    rcases outcome_cases (commandStep sys commands k s) with ⟨p, hp⟩ | ⟨b, hb⟩
    · rw [commandsLoop_cons_panic sys pre hp] at h
      simp at h
    · cases b with
      | false =>
        rw [commandsLoop_cons_false sys pre hb] at h
        simp at h
      | true =>
        rw [commandsLoop_cons_true sys pre hb, Outcome.mk.injEq] at h
        obtain ⟨hr, hs, he⟩ := h
        have ih := commandsLoop_append commands post pre _ s1
          (commandsLoop sys commands pre (commandStep sys commands k s).state).events
          (by rw [← hr, ← hs])
        rw [List.cons_append, commandsLoop_cons_true sys (pre ++ post) hb, ih, ← he]
        simp

/-! ### Which identifiers the log names -/

theorem calledIds_cons_applyCommand (site : Site) (k : String) (events : List Event) :
    calledIds (Event.applyCommand site k :: events) = k :: calledIds events := by
  simp [calledIds]

theorem calledIds_cons_call (c : Call) (events : List Event) :
    calledIds (Event.call c :: events) = calledIds events := by
  simp [calledIds]

theorem calledIds_nil : calledIds [] = [] := rfl

theorem calledIds_commandStep (commands : Hash) (k : String) (s : σ) :
    (calledIds (commandStep sys commands k s).events = [] ∧
        ∃ p, (commandStep sys commands k s).result = Except.error p) ∨
      calledIds (commandStep sys commands k s).events = [k] ∨
      calledIds (commandStep sys commands k s).events = [k, k] := by
  have hmain : ∀ (s1 : σ) (e1 : List Event) (ids : List String),
      commandTest sys commands k s = ⟨Except.ok true, s1, e1⟩ → calledIds e1 = ids →
      calledIds (commandStep sys commands k s).events = ids ++ [k] := by
    intro s1 e1 ids h hid
    rcases outcome_cases (applyCommand sys (commands.index k) s1) with ⟨p, hp⟩ | ⟨b, hb⟩
    · rw [commandStep_of_main_panic sys h hp]
      simp [calledIds_append, calledIds_cons_applyCommand, calledIds_applyCommand, hid]
    · have hev := calledIds_applyCommand sys (commands.index k) s1
      cases b with
      | false =>
        rw [commandStep_of_main_false sys h hb]
        simp [calledIds_append, calledIds_cons_applyCommand, calledIds_cons_call, calledIds_nil,
          hev, hid]
      | true =>
        rw [commandStep_of_main_true sys h hb]
        simp [calledIds_append, calledIds_cons_applyCommand, hev, hid]
  cases hu : unpackHash k commands with
  | error p =>
    left
    have ht := commandTest_of_panic sys s hu
    have hs := commandStep_of_test_panic sys (p := p) (by rw [ht])
    rw [hs, ht]
    exact ⟨rfl, p, rfl⟩
  | ok info =>
    right
    cases hn : (info.index "test").isNil with
    | true =>
      left
      exact hmain s [] [] (commandTest_of_no_test sys s hu hn) rfl
    | false =>
      have ht := commandTest_of_test sys s hu hn
      have hev := calledIds_applyCommand sys (info.index "test") s
      rcases outcome_cases (applyCommand sys (info.index "test") s) with ⟨p, hp⟩ | ⟨b, hb⟩
      · left
        rw [commandStep_of_test_panic sys (p := p) (by rw [ht]; exact hp), ht]
        simp [calledIds_cons_applyCommand, hev]
      · cases b with
        | false =>
          left
          have ht' : commandTest sys commands k s =
              ⟨Except.ok false, (applyCommand sys (info.index "test") s).state,
                Event.applyCommand Site.test k ::
                  (applyCommand sys (info.index "test") s).events⟩ := by
            rw [ht, Outcome.mk.injEq]
            exact ⟨by rw [hb], rfl, rfl⟩
          rw [commandStep_of_test_false sys ht']
          simp [calledIds_append, calledIds_cons_applyCommand, calledIds_cons_call,
            calledIds_nil, hev]
        | true =>
          right
          exact hmain _ _ [k] (by rw [ht, Outcome.mk.injEq]; exact ⟨by rw [hb], rfl, rfl⟩)
            (by simp [calledIds_cons_applyCommand, hev])

/-- The identifiers the loop names are listed in the order of the list it runs
over, each at most twice. -/
theorem calledIds_commandsLoop_sublist (commands : Hash) :
    ∀ (l : List String) (s : σ),
      (calledIds (commandsLoop sys commands l s).events).Sublist (l.flatMap fun k => [k, k])
  | [], s => by simp [commandsLoop, calledIds]
  | k :: rest, s => by
    have hk : (calledIds (commandStep sys commands k s).events).Sublist [k, k] := by
      rcases calledIds_commandStep sys commands k s with ⟨h, -⟩ | h | h <;> rw [h] <;> simp
    rcases outcome_cases (commandStep sys commands k s) with ⟨p, hp⟩ | ⟨b, hb⟩
    · rw [commandsLoop_cons_panic sys rest hp, List.flatMap_cons]
      exact hk.trans (List.sublist_append_left _ _)
    · cases b with
      | false =>
        rw [commandsLoop_cons_false sys rest hb, List.flatMap_cons]
        exact hk.trans (List.sublist_append_left _ _)
      | true =>
        rw [commandsLoop_cons_true sys rest hb, List.flatMap_cons, calledIds_append]
        exact hk.append (calledIds_commandsLoop_sublist commands rest _)

theorem mem_of_mem_calledIds_commandsLoop (commands : Hash) (l : List String) (s : σ)
    (k : String) (h : k ∈ calledIds (commandsLoop sys commands l s).events) : k ∈ l := by
  have h1 := (calledIds_commandsLoop_sublist sys commands l s).subset h
  simp only [List.mem_flatMap] at h1
  obtain ⟨a, ha, hka⟩ := h1
  simp at hka
  rw [hka]
  exact ha

/-- The identifiers the loop names, each listed once, are an initial segment of the
list it runs over. -/
theorem calledIds_commandsLoop_take (commands : Hash) :
    ∀ (l : List String) (s : σ), l.Nodup →
      ∃ n, (calledIds (commandsLoop sys commands l s).events).dedup = l.take n
  | [], s, _ => ⟨0, by simp [commandsLoop, calledIds]⟩
  | k :: rest, s, hnd => by
    have hstop : ∃ n, (calledIds (commandStep sys commands k s).events).dedup =
        (k :: rest).take n := by
      rcases calledIds_commandStep sys commands k s with ⟨h, -⟩ | h | h
      · exact ⟨0, by rw [h]; rfl⟩
      · exact ⟨1, by rw [h]; rfl⟩
      · exact ⟨1, by rw [h]; simp⟩
    rcases outcome_cases (commandStep sys commands k s) with ⟨p, hp⟩ | ⟨b, hb⟩
    · rw [commandsLoop_cons_panic sys rest hp]
      exact hstop
    · cases b with
      | false =>
        rw [commandsLoop_cons_false sys rest hb]
        exact hstop
      | true =>
        obtain ⟨n, hn⟩ := calledIds_commandsLoop_take commands rest
          (commandStep sys commands k s).state (List.nodup_cons.1 hnd).2
        have hk : k ∉ calledIds (commandsLoop sys commands rest
            (commandStep sys commands k s).state).events := fun hmem =>
          (List.nodup_cons.1 hnd).1 (mem_of_mem_calledIds_commandsLoop sys commands rest _ k hmem)
        refine ⟨n + 1, ?_⟩
        rw [commandsLoop_cons_true sys rest hb, calledIds_append, List.take_succ_cons, ← hn]
        rcases calledIds_commandStep sys commands k s with ⟨-, p, hp⟩ | h | h
        · rw [hb] at hp
          simp at hp
        · rw [h, List.singleton_append, List.dedup_cons_of_not_mem hk]
        · rw [h, List.cons_append, List.singleton_append,
            List.dedup_cons_of_mem (List.mem_cons_self _ _), List.dedup_cons_of_not_mem hk]

theorem calledAt_cons_applyCommand (site at_ : Site) (k : String) (events : List Event) :
    calledAt site (Event.applyCommand at_ k :: events) =
      if at_ = site then k :: calledAt site events else calledAt site events := by
  by_cases h : at_ = site <;> simp [calledAt, h]

theorem calledAt_cons_call (site : Site) (c : Call) (events : List Event) :
    calledAt site (Event.call c :: events) = calledAt site events := by
  simp [calledAt]

theorem mem_calledIds_of_mem_calledAt (site : Site) (k : String) :
    ∀ events : List Event, k ∈ calledAt site events → k ∈ calledIds events
  | [] => fun h => by simp [calledAt] at h
  | e :: events => fun h => by
    have ih := mem_calledIds_of_mem_calledAt site k events
    cases e with
    | call c =>
      rw [calledIds_cons_call]
      exact ih (by simpa [calledAt] using h)
    | deferred c => exact (by simpa [calledIds] using ih (by simpa [calledAt] using h))
    | applyCommand at_ identifier =>
      rw [calledIds_cons_applyCommand]
      by_cases hs : at_ = site
      · have h' : k = identifier ∨ k ∈ calledAt site events := by simpa [calledAt, hs] using h
        rcases h' with h' | h'
        · exact h' ▸ List.mem_cons_self _ _
        · exact List.mem_cons_of_mem _ (ih h')
      · exact List.mem_cons_of_mem _ (ih (by simpa [calledAt, hs] using h))

theorem mem_calledIds_commandStep (commands : Hash) (k k' : String) (s : σ)
    (h : k' ∈ calledIds (commandStep sys commands k s).events) : k' = k := by
  rcases calledIds_commandStep sys commands k s with ⟨h1, -⟩ | h1 | h1 <;> rw [h1] at h <;>
    simp at h <;> exact h

/-! ### Independence of the representation of the map -/

theorem commandStep_congr (commands other : Hash) (h : ∀ k, other.index k = commands.index k)
    (k : String) : commandStep sys other k = commandStep sys commands k := by
  simp only [commandStep, commandTest, unpackHash, h]

theorem commandsLoop_congr (commands other : Hash) (h : ∀ k, other.index k = commands.index k) :
    ∀ l : List String, commandsLoop sys other l = commandsLoop sys commands l
  | [] => rfl
  | k :: rest => by
    simp only [commandsLoop, commandStep_congr sys commands other h k,
      commandsLoop_congr commands other h rest]

theorem processCommands_congr (commands other : Hash)
    (hkeys : ∀ k, k ∈ other.keys ↔ k ∈ commands.keys)
    (h : ∀ k, other.index k = commands.index k) :
    processCommands sys other = processCommands sys commands := by
  simp only [processCommands, commandsLoop_congr sys commands other h,
    sortStrings_congr other.keys commands.keys (keys_nodup other) (keys_nodup commands) hkeys]

/-! ### Runs in which nothing fails -/

theorem outcome_of_result {α : Type} (o : Outcome σ α) (a : α) (h : o.result = Except.ok a) :
    o = ⟨Except.ok a, o.state, o.events⟩ := by
  obtain ⟨r, st, ev⟩ := o
  simp only at h
  rw [h]

theorem commandsLoop_all_pass (commands : Hash) :
    ∀ (l : List String) (s : σ),
      (∀ k ∈ l, ∃ d, commands.index k = Json.obj d ∧
        (∀ t, ∃ b, (applyCommand sys (Hash.index (some d) "test") t).result = Except.ok b) ∧
        ∀ t, (applyCommand sys (Json.obj d) t).result = Except.ok true) →
      (commandsLoop sys commands l s).result = Except.ok true
  | [], s => fun _ => rfl
  | k :: rest, s => fun h => by
    obtain ⟨d, hd, htest, hrun⟩ := h k (List.mem_cons_self _ _)
    have hu := unpackHash_of_obj k commands d hd
    have ih := fun t => commandsLoop_all_pass commands rest t
      (fun k' hk' => h k' (List.mem_cons_of_mem _ hk'))
    have hmain : ∀ (s1 : σ) (e1 : List Event),
        commandTest sys commands k s = ⟨Except.ok true, s1, e1⟩ →
        (commandsLoop sys commands (k :: rest) s).result = Except.ok true := by
      intro s1 e1 ht
      have hm := outcome_of_result _ _ (hd ▸ hrun s1)
      rw [commandsLoop_cons_true sys rest (commandStep_of_main_true sys ht hm)]
      exact ih _
    cases hn : (Hash.index (some d) "test").isNil with
    | true => exact hmain s [] (commandTest_of_no_test sys s hu hn)
    | false =>
      have ht := commandTest_of_test sys s hu hn
      obtain ⟨b, hb⟩ := htest s
      cases b with
      | false =>
        rw [outcome_of_result _ _ hb] at ht
        rw [commandsLoop_cons_true sys rest (commandStep_of_test_false sys ht)]
        exact ih _
      | true =>
        rw [outcome_of_result _ _ hb] at ht
        exact hmain _ _ ht

end Commands

/-! ## What is applied and run, and in which order -/

section Trail
variable {σ : Type} (sys : Sys σ)

theorem trail_append (a b : List Event) : trail (a ++ b) = trail a ++ trail b := by
  simp [trail]

theorem trail_cons_applyCommand (site : Site) (k : String) (events : List Event) :
    trail (Event.applyCommand site k :: events) = Event.applyCommand site k :: trail events := by
  simp [trail, Event.onTrail]

theorem trail_printf (text : String) : trail [Event.call (Call.printf text)] = [] := by
  simp [trail, Event.onTrail]

theorem trail_runCommand (cmd : Cmd) (text : String) (s : σ) :
    trail (runCommand sys cmd text s).events = [Event.call (Call.run cmd)] := by
  rw [runCommand_apply]
  cases (sys.call (Call.run cmd) s).1 <;> simp [trail, Event.onTrail]

/-- Whatever its result, `applyCommand` runs the command built from its argument,
if one is built, and no other. -/
theorem trail_applyCommand (thing : Json) (s : σ) :
    trail (applyCommand sys thing s).events = runEvents (cmdOf thing) := by
  cases thing with
  | str t => simp [applyCommand, trail_runCommand, cmdOf, runEvents]
  | obj hash =>
    simp only [applyCommand, Prog.bind_apply, Prog.bind, Prog.lift_apply, cmdOf]
    cases assertString (Hash.index (some hash) "command") with
    | error p => simp [trail, runEvents]
    | ok command =>
      cases commandEnv hash with
      | error p => simp [trail, runEvents]
      | ok env =>
        cases commandDir hash with
        | error p => simp [trail, runEvents]
        | ok dir => simp [trail_runCommand, runEvents]
  | null => simp [applyCommand, Prog.bind_apply, Prog.bind, trail, Event.onTrail, cmdOf, runEvents]
  | bool b => simp [applyCommand, Prog.bind_apply, Prog.bind, trail, Event.onTrail, cmdOf, runEvents]
  | num n => simp [applyCommand, Prog.bind_apply, Prog.bind, trail, Event.onTrail, cmdOf, runEvents]
  | arr items =>
    simp [applyCommand, Prog.bind_apply, Prog.bind, trail, Event.onTrail, cmdOf, runEvents]

theorem runCmds_trail (events : List Event) : runCmds (trail events) = runCmds events := by
  induction events with
  | nil => rfl
  | cons e rest ih =>
    cases e with
    | call c => cases c <;> simp_all [trail, runCmds, Event.onTrail]
    | deferred c => simp_all [trail, runCmds, Event.onTrail]
    | applyCommand site k => simp_all [trail, runCmds, Event.onTrail]

theorem runCmds_runEvents (cmd : Option Cmd) : runCmds (runEvents cmd) = cmd.toList := by
  cases cmd <;> simp [runCmds, runEvents]

theorem runCmds_applyCommand (thing : Json) (s : σ) :
    runCmds (applyCommand sys thing s).events = (cmdOf thing).toList := by
  rw [← runCmds_trail, trail_applyCommand, runCmds_runEvents]

theorem cmdOf_isSome_of_true (thing : Json) (s : σ)
    (h : (applyCommand sys thing s).result = Except.ok true) : (cmdOf thing).isSome = true := by
  have h1 := runCmds_applyCommand_of_true sys thing s h
  rw [runCmds_applyCommand] at h1
  cases hc : cmdOf thing with
  | none => simp [hc] at h1
  | some c => rfl

theorem testOf_of_ok {commands info : Hash} {k : String}
    (h : unpackHash k commands = Except.ok info) : testOf commands k = info.index "test" := by
  simp [testOf, h]

/-- What the iteration for `k` applies and runs is an initial part of `block`. -/
theorem trail_commandStep (commands : Hash) (k : String) (s : σ) :
    trail (commandStep sys commands k s).events <+: block commands k := by
  have hmain : ∀ (s1 : σ) (e1 : List Event),
      commandTest sys commands k s = ⟨Except.ok true, s1, e1⟩ →
      trail (commandStep sys commands k s).events =
        trail e1 ++ Event.applyCommand Site.main k :: runEvents (cmdOf (commands.index k)) := by
    intro s1 e1 h
    have hev := trail_applyCommand sys (commands.index k) s1
    rcases outcome_cases (applyCommand sys (commands.index k) s1) with ⟨p, hp⟩ | ⟨b, hb⟩
    · rw [commandStep_of_main_panic sys h hp]
      simp only [trail_append, trail_cons_applyCommand, hev]
    · cases b with
      | false =>
        rw [commandStep_of_main_false sys h hb]
        simp only [trail_append, trail_cons_applyCommand, hev, trail_printf, List.append_nil]
      | true =>
        rw [commandStep_of_main_true sys h hb]
        simp only [trail_append, trail_cons_applyCommand, hev]
  cases hu : unpackHash k commands with
  | error p =>
    have ht := commandTest_of_panic sys s hu
    have hs := commandStep_of_test_panic sys (p := p) (by rw [ht])
    rw [hs, ht]
    exact ⟨block commands k, rfl⟩
  | ok info =>
    have hto := testOf_of_ok hu
    cases hn : (info.index "test").isNil with
    | true =>
      rw [hmain s [] (commandTest_of_no_test sys s hu hn), block, hto, hn]
      exact ⟨[], List.append_nil _⟩
    | false =>
      have ht := commandTest_of_test sys s hu hn
      have hev := trail_applyCommand sys (info.index "test") s
      have hblock : block commands k =
          (Event.applyCommand Site.test k :: runEvents (cmdOf (info.index "test"))) ++
            Event.applyCommand Site.main k :: runEvents (cmdOf (commands.index k)) := by
        simp [block, hto, hn]
      rw [hblock]
      rcases outcome_cases (applyCommand sys (info.index "test") s) with ⟨p, hp⟩ | ⟨b, hb⟩
      · rw [commandStep_of_test_panic sys (p := p) (by rw [ht]; exact hp), ht]
        simp only [trail_cons_applyCommand, hev]
        exact ⟨_, rfl⟩
      · cases b with
        | false =>
          have ht' : commandTest sys commands k s =
              ⟨Except.ok false, (applyCommand sys (info.index "test") s).state,
                Event.applyCommand Site.test k ::
                  (applyCommand sys (info.index "test") s).events⟩ := by
            rw [ht, Outcome.mk.injEq]
            exact ⟨by rw [hb], rfl, rfl⟩
          rw [commandStep_of_test_false sys ht']
          simp only [trail_append, trail_cons_applyCommand, hev, trail_printf, List.append_nil]
          exact ⟨_, rfl⟩
        | true =>
          have ht' : commandTest sys commands k s =
              ⟨Except.ok true, (applyCommand sys (info.index "test") s).state,
                Event.applyCommand Site.test k ::
                  (applyCommand sys (info.index "test") s).events⟩ := by
            rw [ht, Outcome.mk.injEq]
            exact ⟨by rw [hb], rfl, rfl⟩
          rw [hmain _ _ ht']
          simp only [trail_cons_applyCommand, hev]
          exact ⟨[], List.append_nil _⟩

/-- What the loop applies and runs splits into one part for each of the first so
many identifiers it runs over, each an initial part of the block of its identifier. -/
theorem trail_commandsLoop_parts (commands : Hash) :
    ∀ (l : List String) (s : σ), ∃ (n : Nat) (parts : List (List Event)),
      List.Forall₂ (fun part k => part <+: block commands k) parts (l.take n) ∧
        trail (commandsLoop sys commands l s).events = parts.flatten
  | [], s => ⟨0, [], by simp [commandsLoop, trail]⟩
  | k :: rest, s => by
    have hk := trail_commandStep sys commands k s
    have hstop : ∃ (n : Nat) (parts : List (List Event)),
        List.Forall₂ (fun part k => part <+: block commands k) parts ((k :: rest).take n) ∧
          trail (commandStep sys commands k s).events = parts.flatten :=
      ⟨1, [trail (commandStep sys commands k s).events], by simp [hk]⟩
    rcases outcome_cases (commandStep sys commands k s) with ⟨p, hp⟩ | ⟨b, hb⟩
    · rw [commandsLoop_cons_panic sys rest hp]
      exact hstop
    · cases b with
      | false =>
        rw [commandsLoop_cons_false sys rest hb]
        exact hstop
      | true =>
        obtain ⟨n, parts, hparts, htrail⟩ := trail_commandsLoop_parts commands rest
          (commandStep sys commands k s).state
        refine ⟨n + 1, trail (commandStep sys commands k s).events :: parts, ?_, ?_⟩
        · rw [List.take_succ_cons]
          exact List.Forall₂.cons hk hparts
        · rw [commandsLoop_cons_true sys rest hb, trail_append, htrail, List.flatten_cons]

/-- A run over object directives without test in which every directive's command,
when the run comes to it, succeeds. -/
theorem commandsLoop_all_main (commands : Hash) :
    ∀ (l : List String) (s : σ),
      (∀ k ∈ l, ∃ d, commands.index k = Json.obj d ∧ Hash.index (some d) "test" = Json.null) →
      (∀ (pre post : List String) (k : String) (s1 : σ) (e1 : List Event),
        l = pre ++ k :: post →
        commandsLoop sys commands pre s = ⟨Except.ok true, s1, e1⟩ →
        (applyCommand sys (commands.index k) s1).result = Except.ok true) →
      (commandsLoop sys commands l s).result = Except.ok true ∧
        trail (commandsLoop sys commands l s).events =
          l.flatMap (fun k =>
            Event.applyCommand Site.main k :: runEvents (cmdOf (commands.index k))) ∧
        (runCmds (commandsLoop sys commands l s).events).map some =
          l.map (fun k => cmdOf (commands.index k)) ∧
        calledAt Site.main (commandsLoop sys commands l s).events = l ∧
        calledAt Site.test (commandsLoop sys commands l s).events = []
  | [], s => fun _ _ => by simp [commandsLoop, calledAt, runCmds, trail]
  | k :: rest, s => fun h hrun => by
    obtain ⟨d, hd, htest⟩ := h k (List.mem_cons_self _ _)
    have ht := commandTest_of_no_test sys s (unpackHash_of_obj k commands d hd)
      (by rw [htest]; rfl)
    have hres := hrun [] rest k s [] rfl rfl
    have hm := outcome_of_result _ _ hres
    have hstep := commandStep_of_main_true sys ht hm
    obtain ⟨ih1, ih2, ih3, ih4, ih5⟩ := commandsLoop_all_main commands rest
      (applyCommand sys (commands.index k) s).state
      (fun k' hk' => h k' (List.mem_cons_of_mem _ hk'))
      (fun pre post k' s1 e1 hsplit hpre =>
        hrun (k :: pre) post k' s1 _ (by rw [hsplit, List.cons_append])
          (by rw [commandsLoop_cons_true sys pre hstep, hpre]))
    have hsome := cmdOf_isSome_of_true sys (commands.index k) s hres
    obtain ⟨c, hc⟩ := Option.isSome_iff_exists.1 hsome
    rw [commandsLoop_cons_true sys rest hstep]
    refine ⟨ih1, ?_, ?_, ?_, ?_⟩
    · simp only [trail_append, List.nil_append, trail_cons_applyCommand, trail_applyCommand, ih2,
        List.flatMap_cons, List.cons_append]
    · simp only [runCmds_append, List.nil_append, runCmds_cons_applyCommand,
        runCmds_applyCommand, hc, List.map_append, ih3, List.map_cons, Option.toList_some]
      rfl
    · simp [calledAt_append, calledAt_cons_applyCommand, calledAt_applyCommand, ih4]
    · simp [calledAt_append, calledAt_cons_applyCommand, calledAt_applyCommand, ih5]

end Trail

/-! ## `processCommands` -/

/-- C1. `processCommands` handles the identifiers in ascending byte order, whatever
the order in which the map lists them.  The list it runs over is the keys of the map
in ascending byte order.  What it applies and runs, in the order of the log, splits
into one part for each of the first so many keys of that list, and the part of a key
is an initial part of the block of that key: the test of its directive with the
command built from that test, then the directive with the command built from it.
The identifiers applied, each listed once, are an initial segment of the sorted keys.
Two maps with the same keys and the same values give the same run.  And when every
directive is an object without `test` and, in this run, the command of each directive
succeeds when the run comes to it, the run returns true and the commands run are
exactly the commands built from the directives of the sorted keys, in that order,
each right after `applyCommand` is called on its directive. -/
theorem processCommands_sorted_order {σ : Type} (sys : Sys σ) (commands : Hash) (s : σ) :
    ((sortStrings commands.keys).Sorted StrLE ∧ (sortStrings commands.keys).Perm commands.keys) ∧
    (∃ (n : Nat) (parts : List (List Event)),
        List.Forall₂ (fun part k => part <+: block commands k) parts
          ((sortStrings commands.keys).take n) ∧
        trail (processCommands sys commands s).events = parts.flatten) ∧
    (∃ n, (calledIds (processCommands sys commands s).events).dedup =
        (sortStrings commands.keys).take n) ∧
    (calledIds (processCommands sys commands s).events).Sublist
        ((sortStrings commands.keys).flatMap fun k => [k, k]) ∧
    (∀ other : Hash, (∀ k, k ∈ other.keys ↔ k ∈ commands.keys) →
        (∀ k, other.index k = commands.index k) →
        processCommands sys other s = processCommands sys commands s) ∧
    ((∀ k ∈ commands.keys, ∃ d, commands.index k = Json.obj d ∧
          Hash.index (some d) "test" = Json.null) →
      (∀ (pre post : List String) (k : String) (s1 : σ) (e1 : List Event),
          sortStrings commands.keys = pre ++ k :: post →
          commandsLoop sys commands pre s = ⟨Except.ok true, s1, e1⟩ →
          (applyCommand sys (commands.index k) s1).result = Except.ok true) →
      (processCommands sys commands s).result = Except.ok true ∧
        trail (processCommands sys commands s).events =
          (sortStrings commands.keys).flatMap (fun k =>
            Event.applyCommand Site.main k :: runEvents (cmdOf (commands.index k))) ∧
        (runCmds (processCommands sys commands s).events).map some =
          (sortStrings commands.keys).map (fun k => cmdOf (commands.index k)) ∧
        calledAt Site.main (processCommands sys commands s).events = sortStrings commands.keys ∧
        calledAt Site.test (processCommands sys commands s).events = []) := by
  refine ⟨⟨sortStrings_sorted _, sortStrings_perm _⟩,
    trail_commandsLoop_parts sys commands _ s,
    calledIds_commandsLoop_take sys commands _ s (sortedKeys_nodup commands),
    calledIds_commandsLoop_sublist sys commands _ s, ?_, ?_⟩
  · intro other hkeys hindex
    rw [processCommands_congr sys commands other hkeys hindex]
  · intro h hrun
    exact commandsLoop_all_main sys commands _ s
      (fun k hk => h k ((sortStrings_perm commands.keys).mem_iff.1 hk)) hrun

/-- C2. Fail-fast: when the run reaches identifier `k` (the loop over the identifiers
before `k` in sorted order came through), `process` is true for `k`, and
`applyCommand` on the directive of `k` returns false, then `processCommands` returns
false right after printing the error for `k`: the log ends there and names no
identifier that sorts after `k`. -/
theorem processCommands_fail_fast {σ : Type} (sys : Sys σ) (commands : Hash) (s s1 s2 s3 : σ)
    (pre post : List String) (k : String) (e1 e2 e3 : List Event)
    (hsort : sortStrings commands.keys = pre ++ k :: post)
    (hpre : commandsLoop sys commands pre s = ⟨Except.ok true, s1, e1⟩)
    (htest : commandTest sys commands k s1 = ⟨Except.ok true, s2, e2⟩)
    (hmain : applyCommand sys (commands.index k) s2 = ⟨Except.ok false, s3, e3⟩) :
    processCommands sys commands s =
      ⟨Except.ok false, (sys.call (Call.printf ("ERROR: Command failed [" ++ k ++ "]\n")) s3).2,
        e1 ++ (e2 ++ Event.applyCommand Site.main k :: (e3 ++
          [Event.call (Call.printf ("ERROR: Command failed [" ++ k ++ "]\n"))]))⟩ ∧
    ∀ later ∈ post, later ∉ calledIds (processCommands sys commands s).events := by
  have hstep := commandStep_of_main_false sys htest hmain
  have hrun : processCommands sys commands s =
      ⟨Except.ok false, (sys.call (Call.printf ("ERROR: Command failed [" ++ k ++ "]\n")) s3).2,
        e1 ++ (e2 ++ Event.applyCommand Site.main k :: (e3 ++
          [Event.call (Call.printf ("ERROR: Command failed [" ++ k ++ "]\n"))]))⟩ := by
    rw [processCommands, hsort, commandsLoop_append sys commands (k :: post) pre s s1 e1 hpre,
      commandsLoop_cons_false sys post hstep]
  refine ⟨hrun, fun later hlater hmem => ?_⟩
  have hnd : (pre ++ k :: post).Nodup := hsort ▸ sortedKeys_nodup commands
  rw [hrun] at hmem
  simp only [calledIds_append] at hmem
  rcases List.mem_append.1 hmem with h | h
  · have h' : later ∈ pre := by
      apply mem_of_mem_calledIds_commandsLoop sys commands pre s
      rw [hpre]
      exact h
    exact (List.nodup_append.1 hnd).2.2 h' (List.mem_cons_of_mem _ hlater)
  · have h' : later = k := by
      apply mem_calledIds_commandStep sys commands k later s1
      rw [hstep]
      simpa only [calledIds_append] using h
    subst h'
    exact (List.nodup_cons.1 (List.nodup_append.1 hnd).2.1).1 hlater

/-- C3. Test gating: when the run reaches identifier `k`, whose directive is an
object with a `test` on which `applyCommand` returns false, `processCommands` does
not call `applyCommand` on the directive of `k`, prints the warning and goes on with
the identifiers after `k` in sorted order, so that its result is the result of that
remaining loop; in particular the result is true when every later directive is an
object whose test does not panic and whose command succeeds. -/
theorem processCommands_test_gating {σ : Type} (sys : Sys σ) (commands : Hash) (s s1 s2 : σ)
    (pre post : List String) (k : String) (d : Fields) (e1 e2 : List Event)
    (hsort : sortStrings commands.keys = pre ++ k :: post)
    (hpre : commandsLoop sys commands pre s = ⟨Except.ok true, s1, e1⟩)
    (hk : commands.index k = Json.obj d)
    (htest : (Hash.index (some d) "test").isNil = false)
    (hfail : applyCommand sys (Hash.index (some d) "test") s1 = ⟨Except.ok false, s2, e2⟩) :
    processCommands sys commands s =
      ⟨(commandsLoop sys commands post (sys.call
          (Call.printf ("WARN: Command skipped due to test result [" ++ k ++ "]\n")) s2).2).result,
        (commandsLoop sys commands post (sys.call
          (Call.printf ("WARN: Command skipped due to test result [" ++ k ++ "]\n")) s2).2).state,
        e1 ++ ((Event.applyCommand Site.test k :: e2 ++ [Event.call
            (Call.printf ("WARN: Command skipped due to test result [" ++ k ++ "]\n"))]) ++
          (commandsLoop sys commands post (sys.call
            (Call.printf ("WARN: Command skipped due to test result [" ++ k ++ "]\n"))
              s2).2).events)⟩ ∧
    k ∉ calledAt Site.main (processCommands sys commands s).events ∧
    ((∀ later ∈ post, ∃ d', commands.index later = Json.obj d' ∧
          (∀ t, ∃ b, (applyCommand sys (Hash.index (some d') "test") t).result = Except.ok b) ∧
          ∀ t, (applyCommand sys (Json.obj d') t).result = Except.ok true) →
      (processCommands sys commands s).result = Except.ok true) := by
  have ht : commandTest sys commands k s1 =
      ⟨Except.ok false, s2, Event.applyCommand Site.test k :: e2⟩ := by
    rw [commandTest_of_test sys s1 (unpackHash_of_obj k commands d hk) htest, hfail]
  have hstep := commandStep_of_test_false sys ht
  have hrun := commandsLoop_append sys commands (k :: post) pre s s1 e1 hpre
  rw [commandsLoop_cons_true sys post hstep, ← hsort] at hrun
  have hnd : (pre ++ k :: post).Nodup := hsort ▸ sortedKeys_nodup commands
  refine ⟨hrun, ?_, fun h => ?_⟩
  · have hA : k ∉ calledAt Site.main e1 := fun hmem => by
      have h' : k ∈ pre := by
        apply mem_of_mem_calledIds_commandsLoop sys commands pre s
        rw [hpre]
        exact mem_calledIds_of_mem_calledAt Site.main k e1 hmem
      exact (List.nodup_append.1 hnd).2.2 h' (List.mem_cons_self _ _)
    have he2 := calledAt_applyCommand sys Site.main (Hash.index (some d) "test") s1
    rw [hfail] at he2
    have hB : calledAt Site.main (Event.applyCommand Site.test k :: e2 ++ [Event.call
        (Call.printf ("WARN: Command skipped due to test result [" ++ k ++ "]\n"))]) = [] := by
      rw [List.cons_append, calledAt_cons_applyCommand, if_neg (by decide), calledAt_append, he2,
        calledAt_cons_call]
      rfl
    have hC : k ∉ calledAt Site.main (commandsLoop sys commands post (sys.call
        (Call.printf ("WARN: Command skipped due to test result [" ++ k ++ "]\n")) s2).2).events :=
      fun hmem => (List.nodup_cons.1 (List.nodup_append.1 hnd).2.1).1
        (mem_of_mem_calledIds_commandsLoop sys commands post _ k
          (mem_calledIds_of_mem_calledAt Site.main k _ hmem))
    rw [processCommands, hrun]
    simp only [calledAt_append, hB, List.nil_append, List.mem_append, not_or]
    exact ⟨hA, hC⟩
  · rw [processCommands, hrun]
    exact commandsLoop_all_pass sys commands post _ h

/-! ## The environment of the child process -/

theorem envEntries_of_strings (env_map : Hash) :
    ∀ (names env : List String),
      (∀ K ∈ names, ∃ V, env_map.index K = Json.str V) →
      envEntries env_map names env =
        Except.ok (env ++ names.map fun K => K ++ "=" ++ (env_map.index K).text)
  | [], env => fun _ => by simp [envEntries]
  | K :: names, env => fun h => by
    obtain ⟨V, hV⟩ := h K (List.mem_cons_self _ _)
    rw [envEntries, hV]
    simp only [assertString, List.map_cons]
    rw [envEntries_of_strings env_map names _ (fun K' hK' => h K' (List.mem_cons_of_mem _ hK')),
      List.append_assoc, List.singleton_append, hV]
    rfl

theorem commandDir_of_cwd (hash : Fields) (dir : String)
    (h : (Hash.index (some hash) "cwd" = Json.null ∧ dir = "") ∨
      Hash.index (some hash) "cwd" = Json.str dir) : commandDir hash = Except.ok dir := by
  rcases h with ⟨h, rfl⟩ | h <;> simp [commandDir, h, Json.isNil, assertString]

/-- C6. For an object directive whose `command` is a string (and whose `cwd` is
absent or a string): when `env` is an object of strings, empty or not,
`applyCommand` runs one child, `sh -c command`, whose `Env` is set to exactly the
entries `K=V` of `env`, one for each key (the keys are distinct), so the parent's
environment is not passed on; when `env` is absent (or null) `Env` is left nil and
the child gets the parent's environment. -/
theorem applyCommand_env {σ : Type} (sys : Sys σ) (hash env_map : Fields)
    (command dir : String) (s : σ)
    (hcommand : Hash.index (some hash) "command" = Json.str command)
    (hcwd : (Hash.index (some hash) "cwd" = Json.null ∧ dir = "") ∨
      Hash.index (some hash) "cwd" = Json.str dir) :
    (Hash.index (some hash) "env" = Json.obj env_map →
      (∀ K ∈ Hash.keys (some env_map), ∃ V, Hash.index (some env_map) K = Json.str V) →
      applyCommand sys (Json.obj hash) s =
          runCommand sys ⟨"sh", ["-c", command],
            some ((Hash.keys (some env_map)).map fun K =>
              K ++ "=" ++ (Hash.index (some env_map) K).text), dir⟩ command s ∧
        runCmds (applyCommand sys (Json.obj hash) s).events =
          [⟨"sh", ["-c", command],
            some ((Hash.keys (some env_map)).map fun K =>
              K ++ "=" ++ (Hash.index (some env_map) K).text), dir⟩] ∧
        (Hash.keys (some env_map)).Nodup) ∧
    (Hash.index (some hash) "env" = Json.null →
      applyCommand sys (Json.obj hash) s =
          runCommand sys ⟨"sh", ["-c", command], none, dir⟩ command s ∧
        runCmds (applyCommand sys (Json.obj hash) s).events =
          [⟨"sh", ["-c", command], none, dir⟩]) := by
  have hdir := commandDir_of_cwd hash dir hcwd
  refine ⟨fun henv hvals => ?_, fun henv => ?_⟩
  · have he : commandEnv hash = Except.ok (some ((Hash.keys (some env_map)).map fun K =>
        K ++ "=" ++ (Hash.index (some env_map) K).text)) := by
      simp only [commandEnv, unpackHash_of_obj "env" (some hash) env_map henv]
      rw [envEntries_of_strings (some env_map) _ [] hvals]
      rfl
    have hrun : applyCommand sys (Json.obj hash) s =
        runCommand sys ⟨"sh", ["-c", command],
          some ((Hash.keys (some env_map)).map fun K =>
            K ++ "=" ++ (Hash.index (some env_map) K).text), dir⟩ command s := by
      simp [applyCommand, Prog.bind_apply, Prog.bind, hcommand, assertString, he, hdir]
    exact ⟨hrun, by rw [hrun, runCmds_runCommand], keys_nodup _⟩
  · have he : commandEnv hash = Except.ok none := by
      simp only [commandEnv, unpackHash_of_null "env" (some hash) henv]
    have hrun : applyCommand sys (Json.obj hash) s =
        runCommand sys ⟨"sh", ["-c", command], none, dir⟩ command s := by
      simp [applyCommand, Prog.bind_apply, Prog.bind, hcommand, assertString, he, hdir]
    exact ⟨hrun, by rw [hrun, runCmds_runCommand]⟩

/-! ## `processFiles` -/

section Files
variable {σ : Type} (sys : Sys σ)

theorem writeContent_within (name : String) (content : Json) (s : σ) :
    ∀ e ∈ (writeContent sys name content s).events, e.within name := by
  intro e he
  cases content <;>
    simp [writeContent, Prog.bind_apply, Prog.bind] at he <;>
    subst he <;> simp [Event.within, Call.target]

theorem fetchSource_within (name : String) (source : Json) (s : σ) :
    ∀ e ∈ (fetchSource sys name source s).events, e.within name := by
  intro e he
  simp only [fetchSource, Prog.bind_apply, Prog.bind, Sys.perform_apply, Prog.note_apply,
    Prog.lift_apply, Prog.pure_apply] at he
  cases hsrc : (assertString source).map stripQuotes with
  | error p =>
    simp [hsrc] at he
    rcases he with rfl | rfl <;> simp [Event.within, Call.target]
  | ok url =>
    cases hget : (sys.call (Call.httpGet url) (sys.call (Call.create name) s).2).1 with
    | some err =>
      simp [hsrc, hget] at he
      rcases he with rfl | rfl | rfl <;> simp [Event.within, Call.target]
    | none =>
      simp [hsrc, hget, Prog.bind_apply, Prog.bind] at he
      rcases he with rfl | rfl | rfl | rfl | rfl <;> simp [Event.within, Call.target]
      cases (sys.call (Call.create name) s).1 <;> simp

theorem fileStep_of_mkdir_error (files : Hash) (name : String) (s : σ)
    (h : ((sys.call (Call.mkdirAll (sys.filepathDir name) 0o755) s).1).isSome = true) :
    fileStep sys files name s =
      ⟨Except.ok false, (sys.call (Call.mkdirAll (sys.filepathDir name) 0o755) s).2,
        [Event.call (Call.mkdirAll (sys.filepathDir name) 0o755)]⟩ := by
  simp [fileStep, Prog.bind_apply, Prog.bind, h]

theorem fileStep_of_panic (files : Hash) (name : String) (s : σ) (p : Panic)
    (h : ((sys.call (Call.mkdirAll (sys.filepathDir name) 0o755) s).1).isSome = false)
    (hu : unpackHash name files = Except.error p) :
    fileStep sys files name s =
      ⟨Except.error p, (sys.call (Call.mkdirAll (sys.filepathDir name) 0o755) s).2,
        [Event.call (Call.mkdirAll (sys.filepathDir name) 0o755)]⟩ := by
  simp [fileStep, Prog.bind_apply, Prog.bind, h, hu]

theorem fileStep_of_content (files fileInfo : Hash) (name : String) (s : σ)
    (h : ((sys.call (Call.mkdirAll (sys.filepathDir name) 0o755) s).1).isSome = false)
    (hu : unpackHash name files = Except.ok fileInfo)
    (hc : (fileInfo.index "content").isNil = false) :
    fileStep sys files name s =
      ⟨(writeContent sys name (fileInfo.index "content")
          (sys.call (Call.mkdirAll (sys.filepathDir name) 0o755) s).2).result,
        (writeContent sys name (fileInfo.index "content")
          (sys.call (Call.mkdirAll (sys.filepathDir name) 0o755) s).2).state,
        Event.call (Call.mkdirAll (sys.filepathDir name) 0o755) ::
          (writeContent sys name (fileInfo.index "content")
            (sys.call (Call.mkdirAll (sys.filepathDir name) 0o755) s).2).events⟩ := by
  simp [fileStep, Prog.bind_apply, Prog.bind, h, hu, hc]

theorem fileStep_of_source (files fileInfo : Hash) (name : String) (s : σ)
    (h : ((sys.call (Call.mkdirAll (sys.filepathDir name) 0o755) s).1).isSome = false)
    (hu : unpackHash name files = Except.ok fileInfo)
    (hc : (fileInfo.index "content").isNil = true)
    (hs : (fileInfo.index "source").isNil = false) :
    (fileStep sys files name s).events =
      Event.call (Call.mkdirAll (sys.filepathDir name) 0o755) ::
        (fetchSource sys name (fileInfo.index "source")
          (sys.call (Call.mkdirAll (sys.filepathDir name) 0o755) s).2).events := by
  cases hr : (fetchSource sys name (fileInfo.index "source")
    (sys.call (Call.mkdirAll (sys.filepathDir name) 0o755) s).2).result <;>
    simp [fileStep, Prog.bind_apply, Prog.bind, h, hu, hc, hs, hr]

theorem fileStep_of_nothing (files fileInfo : Hash) (name : String) (s : σ)
    (h : ((sys.call (Call.mkdirAll (sys.filepathDir name) 0o755) s).1).isSome = false)
    (hu : unpackHash name files = Except.ok fileInfo)
    (hc : (fileInfo.index "content").isNil = true)
    (hs : (fileInfo.index "source").isNil = true) :
    fileStep sys files name s =
      ⟨Except.ok true, (sys.call (Call.mkdirAll (sys.filepathDir name) 0o755) s).2,
        [Event.call (Call.mkdirAll (sys.filepathDir name) 0o755)]⟩ := by
  simp [fileStep, Prog.bind_apply, Prog.bind, h, hu, hc, hs]

theorem fileStep_within (files : Hash) (name : String) (s : σ) :
    ∀ e ∈ (fileStep sys files name s).events, e.within name := by
  have hmk : (Event.call (Call.mkdirAll (sys.filepathDir name) 0o755)).within name :=
    Or.inl rfl
  intro e he
  cases h : ((sys.call (Call.mkdirAll (sys.filepathDir name) 0o755) s).1).isSome with
  | true =>
    rw [fileStep_of_mkdir_error sys files name s h] at he
    simp at he
    exact he ▸ hmk
  | false =>
    cases hu : unpackHash name files with
    | error p =>
      rw [fileStep_of_panic sys files name s p h hu] at he
      simp at he
      exact he ▸ hmk
    | ok fileInfo =>
      cases hc : (fileInfo.index "content").isNil with
      | false =>
        rw [fileStep_of_content sys files fileInfo name s h hu hc] at he
        rcases List.mem_cons.1 he with he | he
        · exact he ▸ hmk
        · exact writeContent_within sys name _ _ e he
      | true =>
        cases hs : (fileInfo.index "source").isNil with
        | false =>
          rw [fileStep_of_source sys files fileInfo name s h hu hc hs] at he
          rcases List.mem_cons.1 he with he | he
          · exact he ▸ hmk
          · exact fetchSource_within sys name _ _ e he
        | true =>
          rw [fileStep_of_nothing sys files fileInfo name s h hu hc hs] at he
          simp at he
          exact he ▸ hmk

theorem fileStep_string_content (files : Hash) (name : String) (fileInfo : Fields)
    (text : String) (s : σ) (hinfo : files.index name = Json.obj fileInfo)
    (hcontent : Hash.index (some fileInfo) "content" = Json.str text) :
    fileStep sys files name s =
      if ((sys.call (Call.mkdirAll (sys.filepathDir name) 0o755) s).1).isSome = true then
        ⟨Except.ok false, (sys.call (Call.mkdirAll (sys.filepathDir name) 0o755) s).2,
          [Event.call (Call.mkdirAll (sys.filepathDir name) 0o755)]⟩
      else
        ⟨Except.ok ((sys.call (Call.writeFile name (utf8 text) 0o600)
            (sys.call (Call.mkdirAll (sys.filepathDir name) 0o755) s).2).1).isNone,
          (sys.call (Call.writeFile name (utf8 text) 0o600)
            (sys.call (Call.mkdirAll (sys.filepathDir name) 0o755) s).2).2,
          [Event.call (Call.mkdirAll (sys.filepathDir name) 0o755),
            Event.call (Call.writeFile name (utf8 text) 0o600)]⟩ := by
  cases h : ((sys.call (Call.mkdirAll (sys.filepathDir name) 0o755) s).1).isSome with
  | true => simp [fileStep_of_mkdir_error sys files name s h]
  | false =>
    rw [fileStep_of_content sys files (some fileInfo) name s h
      (unpackHash_of_obj name files fileInfo hinfo) (by rw [hcontent]; rfl), hcontent]
    simp [writeContent, Prog.bind_apply, Prog.bind]

/-! ### The loop and the deferred calls -/

theorem filesLoop_cons_true {files : Hash} {name : String} (rest : List String)
    {s s1 : σ} {e1 : List Event} (h : fileStep sys files name s = ⟨Except.ok true, s1, e1⟩) :
    filesLoop sys files (name :: rest) s =
      ⟨(filesLoop sys files rest s1).result, (filesLoop sys files rest s1).state,
        e1 ++ (filesLoop sys files rest s1).events⟩ := by
  simp [filesLoop, Prog.bind_apply, Prog.bind, h]

theorem filesLoop_cons_false {files : Hash} {name : String} (rest : List String)
    {s s1 : σ} {e1 : List Event} (h : fileStep sys files name s = ⟨Except.ok false, s1, e1⟩) :
    filesLoop sys files (name :: rest) s = ⟨Except.ok false, s1, e1⟩ := by
  simp [filesLoop, Prog.bind_apply, Prog.bind, h]

theorem filesLoop_cons_panic {files : Hash} {name : String} (rest : List String)
    {s : σ} {p : Panic} (h : (fileStep sys files name s).result = Except.error p) :
    filesLoop sys files (name :: rest) s =
      ⟨Except.error p, (fileStep sys files name s).state, (fileStep sys files name s).events⟩ := by
  simp [filesLoop, Prog.bind_apply, Prog.bind, h]

/-- Every entry of the log of the loop was made by the iteration for one of the
file names. -/
theorem filesLoop_events (files : Hash) :
    ∀ (l : List String) (s : σ), ∀ e ∈ (filesLoop sys files l s).events,
      ∃ name ∈ l, ∃ t, e ∈ (fileStep sys files name t).events
  | [], s => fun e he => by simp [filesLoop] at he
  | name :: rest, s => fun e he => by
    rcases outcome_cases (fileStep sys files name s) with ⟨p, hp⟩ | ⟨b, hb⟩
    · rw [filesLoop_cons_panic sys rest hp] at he
      exact ⟨name, List.mem_cons_self _ _, s, he⟩
    · cases b with
      | false =>
        rw [filesLoop_cons_false sys rest hb] at he
        exact ⟨name, List.mem_cons_self _ _, s, he⟩
      | true =>
        rw [filesLoop_cons_true sys rest hb] at he
        rcases List.mem_append.1 he with he | he
        · exact ⟨name, List.mem_cons_self _ _, s, he⟩
        · obtain ⟨name', hmem, t, ht⟩ := filesLoop_events files rest _ e he
          exact ⟨name', List.mem_cons_of_mem _ hmem, t, ht⟩

/-- When the loop returns true, every iteration was made and returned true. -/
theorem filesLoop_true (files : Hash) :
    ∀ (l : List String) (s : σ), (filesLoop sys files l s).result = Except.ok true →
      ∀ name ∈ l, ∃ t, (fileStep sys files name t).result = Except.ok true ∧
        ∀ e ∈ (fileStep sys files name t).events, e ∈ (filesLoop sys files l s).events
  | [], s => fun _ name hname => by simp at hname
  | first :: rest, s => fun h name hname => by
    rcases outcome_cases (fileStep sys files first s) with ⟨p, hp⟩ | ⟨b, hb⟩
    · rw [filesLoop_cons_panic sys rest hp] at h
      simp at h
    · cases b with
      | false =>
        rw [filesLoop_cons_false sys rest hb] at h
        simp at h
      | true =>
        rw [filesLoop_cons_true sys rest hb] at h ⊢
        rcases List.mem_cons.1 hname with rfl | hname
        · exact ⟨s, by rw [hb], fun e he => List.mem_append_left _ he⟩
        · obtain ⟨t, ht, hev⟩ := filesLoop_true files rest _ h name hname
          exact ⟨t, ht, fun e he => List.mem_append_right _ (hev e he)⟩

theorem filesLoop_append (files : Hash) (post : List String) :
    ∀ (pre : List String) (s s1 : σ) (e1 : List Event),
      filesLoop sys files pre s = ⟨Except.ok true, s1, e1⟩ →
      filesLoop sys files (pre ++ post) s =
        ⟨(filesLoop sys files post s1).result, (filesLoop sys files post s1).state,
          e1 ++ (filesLoop sys files post s1).events⟩
  | [], s, s1, e1 => fun h => by
    simp only [filesLoop, Prog.pure_apply, Outcome.mk.injEq] at h
    obtain ⟨-, rfl, rfl⟩ := h
    simp
  | name :: pre, s, s1, e1 => fun h => by
    rcases outcome_cases (fileStep sys files name s) with ⟨p, hp⟩ | ⟨b, hb⟩
    · rw [filesLoop_cons_panic sys pre hp] at h
      simp at h
    · cases b with
      | false =>
        rw [filesLoop_cons_false sys pre hb] at h
        simp at h
      | true =>
        rw [filesLoop_cons_true sys pre hb, Outcome.mk.injEq] at h
        obtain ⟨hr, hs, he⟩ := h
        have ih := filesLoop_append files post pre _ s1
          (filesLoop sys files pre (fileStep sys files name s).state).events
          (by rw [← hr, ← hs])
        rw [List.cons_append, filesLoop_cons_true sys (pre ++ post) hb, ih, ← he]
        simp

/-- The log of the loop begins with the log of its first iteration. -/
theorem fileStep_events_subset (files : Hash) (name : String) (rest : List String) (s : σ) :
    ∀ e ∈ (fileStep sys files name s).events, e ∈ (filesLoop sys files (name :: rest) s).events := by
  intro e he
  rcases outcome_cases (fileStep sys files name s) with ⟨p, hp⟩ | ⟨b, hb⟩
  · rw [filesLoop_cons_panic sys rest hp]
    exact he
  · cases b with
    | false =>
      rw [filesLoop_cons_false sys rest hb]
      exact he
    | true =>
      rw [filesLoop_cons_true sys rest hb]
      exact List.mem_append_left _ he

theorem mem_deferredCalls (c : Call) :
    ∀ events : List Event, c ∈ deferredCalls events → Event.deferred c ∈ events
  | [] => fun h => by simp [deferredCalls] at h
  | e :: events => fun h => by
    have ih := mem_deferredCalls c events
    cases e with
    | call c' => exact List.mem_cons_of_mem _ (ih (by simpa [deferredCalls] using h))
    | applyCommand site k => exact List.mem_cons_of_mem _ (ih (by simpa [deferredCalls] using h))
    | deferred c' =>
      simp only [deferredCalls, List.mem_append, List.mem_singleton] at h
      rcases h with h | h
      · exact List.mem_cons_of_mem _ (ih h)
      · exact h ▸ List.mem_cons_self _ _

theorem mem_performAll (c : Call) :
    ∀ (calls : List Call) (s : σ), Event.call c ∈ (performAll sys calls s).2 → c ∈ calls
  | [], s => fun h => by simp [performAll] at h
  | c' :: calls, s => fun h => by
    simp only [performAll, List.mem_cons, Event.call.injEq] at h
    rcases h with h | h
    · exact h ▸ List.mem_cons_self _ _
    · exact List.mem_cons_of_mem _ (mem_performAll c calls _ h)

end Files

section FilesClaim
variable {σ : Type} (sys : Sys σ)

theorem mem_keys_of_assoc (name : String) (v : Json) :
    ∀ m : Fields, assoc name m = some v → name ∈ m.map Prod.fst
  | [] => fun h => by simp [assoc] at h
  | (k, w) :: rest => fun h => by
    by_cases hk : k = name
    · simp [hk]
    · simp only [assoc, if_neg hk] at h
      exact List.mem_cons_of_mem _ (mem_keys_of_assoc name v rest h)

theorem mem_keys_of_index (hash : Hash) (name : String) (h : hash.index name ≠ Json.null) :
    name ∈ hash.keys := by
  cases hash with
  | none => exact absurd rfl h
  | some m =>
    cases ha : assoc name m with
    | none => exact absurd (index_of_assoc_none name m ha) h
    | some v => exact List.mem_dedup.2 (mem_keys_of_assoc name v m ha)

/-- C7. For a file directive whose `content` is a string `text`, with or without a
`source`: the iteration of `processFiles` for its path makes the parent directory
and then, unless that failed, makes exactly one more call, writing the bytes of
`text` to the path with permission 0600; in the whole run of `processFiles` the only
call that creates or writes the path is that write (so nothing is fetched into it);
a run that returns true has made the write; and so has every run that reaches the
path (the iterations before it returned true) in a state where its parent directory
can be made. -/
theorem processFiles_string_content (files : Hash) (name : String) (fileInfo : Fields)
    (text : String) (s : σ) (hinfo : files.index name = Json.obj fileInfo)
    (hcontent : Hash.index (some fileInfo) "content" = Json.str text) :
    (∀ t, (fileStep sys files name t).events =
        Event.call (Call.mkdirAll (sys.filepathDir name) 0o755) ::
          (if ((sys.call (Call.mkdirAll (sys.filepathDir name) 0o755) t).1).isSome = true then []
            else [Event.call (Call.writeFile name (utf8 text) 0o600)])) ∧
    (∀ c, Event.call c ∈ (processFiles sys files s).events → c.target = some name →
        c = Call.writeFile name (utf8 text) 0o600) ∧
    ((processFiles sys files s).result = Except.ok true →
        Event.call (Call.writeFile name (utf8 text) 0o600) ∈ (processFiles sys files s).events) ∧
    (∀ (pre post : List String) (s1 : σ) (e1 : List Event), files.keys = pre ++ name :: post →
        filesLoop sys files pre s = ⟨Except.ok true, s1, e1⟩ →
        ((sys.call (Call.mkdirAll (sys.filepathDir name) 0o755) s1).1).isSome = false →
        Event.call (Call.writeFile name (utf8 text) 0o600) ∈ (processFiles sys files s).events) := by
  have hstep : ∀ t, (fileStep sys files name t).events =
      Event.call (Call.mkdirAll (sys.filepathDir name) 0o755) ::
        (if ((sys.call (Call.mkdirAll (sys.filepathDir name) 0o755) t).1).isSome = true then []
          else [Event.call (Call.writeFile name (utf8 text) 0o600)]) := by
    intro t
    rw [fileStep_string_content sys files name fileInfo text t hinfo hcontent]
    split <;> rfl
  refine ⟨hstep, fun c hc htarget => ?_, fun hres => ?_, fun pre post s1 e1 hkeys hpre hmk => ?_⟩
  · simp only [processFiles, withDefers, List.mem_append] at hc
    rcases hc with hc | hc
    · obtain ⟨name', -, t, ht⟩ := filesLoop_events sys files _ s _ hc
      have hw := fileStep_within sys files name' t _ ht
      simp only [Event.within, htarget, Option.some.injEq, false_or, reduceCtorEq] at hw
      subst hw
      rw [hstep t] at ht
      rcases List.mem_cons.1 ht with ht | ht
      · rw [Event.call.injEq] at ht
        rw [ht] at htarget
        simp [Call.target] at htarget
      · split at ht
        · simp at ht
        · simpa using ht
    · have hd := mem_deferredCalls c _ (mem_performAll sys c _ _ hc)
      obtain ⟨name', -, t, ht⟩ := filesLoop_events sys files _ s _ hd
      have hw := fileStep_within sys files name' t _ ht
      simp only [Event.within, htarget, reduceCtorEq] at hw
  · have hkey : name ∈ files.keys := mem_keys_of_index files name (by rw [hinfo]; simp)
    obtain ⟨t, ht, hev⟩ := filesLoop_true sys files files.keys s hres name hkey
    simp only [processFiles, withDefers]
    apply List.mem_append_left
    apply hev
    rw [fileStep_string_content sys files name fileInfo text t hinfo hcontent] at ht ⊢
    split at ht
    · simp at ht
    · rw [if_neg ‹_›]
      simp
  · simp only [processFiles, withDefers, hkeys]
    apply List.mem_append_left
    rw [filesLoop_append sys files (name :: post) pre s s1 e1 hpre]
    apply List.mem_append_right
    apply fileStep_events_subset sys files name post s1
    rw [hstep s1, hmk]
    simp

end FilesClaim

/-! ## The theorems at concrete inputs -/

theorem processCommands_sorted_order_witness :
    ((processCommands demoSys orderedCommands ()).result = Except.ok true ∧
      trail (processCommands demoSys orderedCommands ()).events =
        [Event.applyCommand Site.main "10-a",
          Event.call (Call.run ⟨"sh", ["-c", "echo a"], none, ""⟩),
          Event.applyCommand Site.main "20-b",
          Event.call (Call.run ⟨"sh", ["-c", "echo b"], none, ""⟩)]) ∧
    ((processCommands dirSys dependentCommands []).result = Except.ok true ∧
      (runCmds (processCommands dirSys dependentCommands []).events).map some =
        [some ⟨"sh", ["-c", "mkdir /x"], none, ""⟩,
          some ⟨"sh", ["-c", "touch /x/y"], none, ""⟩]) :=
  have h1 := (processCommands_sorted_order demoSys orderedCommands ()).2.2.2.2.2
    (by
      intro k hk
      have hkeys : orderedCommands.keys = ["20-b", "10-a"] := by decide
      rw [hkeys] at hk
      simp only [List.mem_cons, List.mem_singleton, List.not_mem_nil, or_false] at hk
      rcases hk with rfl | rfl
      · exact ⟨[("command", Json.str "echo b")], rfl, rfl⟩
      · exact ⟨[("command", Json.str "echo a")], rfl, rfl⟩)
    (by
      intro pre post k s1 e1 hsplit _
      have hsort : sortStrings orderedCommands.keys = ["10-a", "20-b"] := by decide
      rw [hsort] at hsplit
      rcases pre with _ | ⟨a, _ | ⟨b, pre⟩⟩
      · simp only [List.nil_append, List.cons.injEq] at hsplit
        obtain ⟨rfl, -⟩ := hsplit
        rfl
      · simp only [List.cons_append, List.nil_append, List.cons.injEq] at hsplit
        obtain ⟨-, rfl, -⟩ := hsplit
        rfl
      · simp at hsplit)
  have h2 := (processCommands_sorted_order dirSys dependentCommands []).2.2.2.2.2
    (by
      intro k hk
      have hkeys : dependentCommands.keys = ["20-touch", "10-mkdir"] := by decide
      rw [hkeys] at hk
      simp only [List.mem_cons, List.mem_singleton, List.not_mem_nil, or_false] at hk
      rcases hk with rfl | rfl
      · exact ⟨[("command", Json.str "touch /x/y")], rfl, rfl⟩
      · exact ⟨[("command", Json.str "mkdir /x")], rfl, rfl⟩)
    (by
      intro pre post k s1 e1 hsplit hpre
      have hsort : sortStrings dependentCommands.keys = ["10-mkdir", "20-touch"] := by decide
      rw [hsort] at hsplit
      rcases pre with _ | ⟨a, _ | ⟨b, pre⟩⟩
      · simp only [List.nil_append, List.cons.injEq] at hsplit
        obtain ⟨rfl, -⟩ := hsplit
        have hs : s1 = [] := (congrArg Outcome.state hpre).symm
        subst hs
        rfl
      · simp only [List.cons_append, List.nil_append, List.cons.injEq] at hsplit
        obtain ⟨rfl, rfl, -⟩ := hsplit
        have hs : s1 = ["/x"] := (congrArg Outcome.state hpre).symm
        subst hs
        rfl
      · simp at hsplit)
  ⟨⟨h1.1, h1.2.1⟩, ⟨h2.1, h2.2.2.1⟩⟩

theorem processCommands_fail_fast_witness :
    (processCommands demoSys failingCommands ()).result = Except.ok false ∧
      "30-c" ∉ calledIds (processCommands demoSys failingCommands ()).events :=
  have h := processCommands_fail_fast demoSys failingCommands () () () () ["10-a"] ["30-c"] "20-b"
    [Event.applyCommand Site.main "10-a",
      Event.call (Call.run ⟨"sh", ["-c", "echo a"], none, ""⟩)]
    []
    [Event.call (Call.run ⟨"sh", ["-c", "exit 1"], none, ""⟩),
      Event.call (Call.printf "WARN: Command unsuccessful: exit 1\n"),
      Event.call (Call.printf "WARN: Command returned failure: exit status 1\n")]
    (by decide) rfl rfl rfl
  ⟨by rw [h.1], h.2 "30-c" (List.mem_singleton_self _)⟩

theorem processCommands_test_gating_witness :
    (processCommands demoSys gatedCommands ()).result = Except.ok true ∧
      "10-a" ∉ calledAt Site.main (processCommands demoSys gatedCommands ()).events :=
  have h := processCommands_test_gating demoSys gatedCommands () () () [] ["20-b"] "10-a"
    [("command", Json.str "echo a"), ("test", Json.str "exit 1")] []
    [Event.call (Call.run ⟨"sh", ["-c", "exit 1"], none, ""⟩),
      Event.call (Call.printf "WARN: Command unsuccessful: exit 1\n"),
      Event.call (Call.printf "WARN: Command returned failure: exit status 1\n")]
    (by decide) rfl rfl rfl rfl
  ⟨h.2.2 (by
      intro later hlater
      rw [List.mem_singleton] at hlater
      subst hlater
      exact ⟨[("command", Json.str "echo b")], rfl, fun _ => ⟨false, rfl⟩, fun _ => rfl⟩),
    h.2.1⟩

theorem applyCommand_env_witness :
    runCmds (applyCommand demoSys (Json.obj envDirective) ()).events =
        [⟨"sh", ["-c", "env"], some ["A=1", "B=2"], ""⟩] ∧
      runCmds (applyCommand demoSys
          (Json.obj [("command", Json.str "env"), ("env", Json.obj [])]) ()).events =
        [⟨"sh", ["-c", "env"], some [], ""⟩] ∧
      runCmds (applyCommand demoSys (Json.obj [("command", Json.str "env")]) ()).events =
        [⟨"sh", ["-c", "env"], none, ""⟩] :=
  ⟨((applyCommand_env demoSys envDirective [("A", Json.str "1"), ("B", Json.str "2")] "env" "" ()
      rfl (Or.inl ⟨rfl, rfl⟩)).1 rfl (by
        intro K hK
        have hkeys : Hash.keys (some [("A", Json.str "1"), ("B", Json.str "2")]) = ["A", "B"] := by
          decide
        rw [hkeys] at hK
        simp only [List.mem_cons, List.mem_singleton, List.not_mem_nil, or_false] at hK
        rcases hK with rfl | rfl
        · exact ⟨"1", rfl⟩
        · exact ⟨"2", rfl⟩)).2.1,
    ((applyCommand_env demoSys [("command", Json.str "env"), ("env", Json.obj [])] [] "env" "" ()
      rfl (Or.inl ⟨rfl, rfl⟩)).1 rfl (fun K hK => absurd hK (List.not_mem_nil K))).2.1,
    ((applyCommand_env demoSys [("command", Json.str "env")] [] "env" "" ()
      rfl (Or.inl ⟨rfl, rfl⟩)).2 rfl).2⟩

theorem processFiles_string_content_witness :
    Event.call (Call.writeFile "/etc/motd" (utf8 "hi") 0o600) ∈
        (processFiles demoSys motdFiles ()).events ∧
      Event.call (Call.create "/etc/motd") ∉ (processFiles demoSys motdFiles ()).events :=
  have h := processFiles_string_content demoSys motdFiles "/etc/motd"
    [("content", Json.str "hi"), ("source", Json.str "http://example.com/motd")] "hi" () rfl rfl
  ⟨h.2.2.1 rfl, fun hmem => by
    have hc := h.2.1 _ hmem rfl
    simp at hc⟩

/-! ## Where the program departs from the description -/

/-- C4. On the commands map `{"05-second": "exit 1", "10-first": "echo hi"}` the run
of `processCommands` ends in the panic of the type assertion in `unpackHash`, on any
machine, before any call: no command is run and no result is returned. -/
theorem processCommands_string_directive_panics {σ : Type} (sys : Sys σ) (s : σ) :
    processCommands sys stringCommands s =
      ⟨Except.error (Panic.typeAssertion "map[string]interface \x7b\x7d" "string"), s, []⟩ := by
  have hsort : sortStrings stringCommands.keys = ["05-second", "10-first"] := by decide
  have hu : unpackHash "05-second" stringCommands =
      Except.error (Panic.typeAssertion "map[string]interface \x7b\x7d" "string") := rfl
  have ht := commandTest_of_panic sys s hu
  have hs := commandStep_of_test_panic sys (s := s) (by rw [ht])
  rw [processCommands, hsort, commandsLoop_cons_panic sys _ (by rw [hs]), hs, ht]

/-- C5. On the commands map `{"10-a": 5, "20-b": {"command": "echo b"}}` the run of
`processCommands` ends in the panic of the type assertion in `unpackHash`, on any
machine, before any call: nothing is printed and no result is returned. -/
theorem processCommands_number_directive_panics {σ : Type} (sys : Sys σ) (s : σ) :
    processCommands sys numberCommands s =
      ⟨Except.error (Panic.typeAssertion "map[string]interface \x7b\x7d" "float64"), s, []⟩ := by
  have hsort : sortStrings numberCommands.keys = ["10-a", "20-b"] := by decide
  have hu : unpackHash "10-a" numberCommands =
      Except.error (Panic.typeAssertion "map[string]interface \x7b\x7d" "float64") := rfl
  have ht := commandTest_of_panic sys s hu
  have hs := commandStep_of_test_panic sys (s := s) (by rw [ht])
  rw [processCommands, hsort, commandsLoop_cons_panic sys _ (by rw [hs]), hs, ht]

/-- C10. `processConfig` never returns false; on a machine where the directory
`/ro` cannot be made, `processFiles` returns false on the files of `readOnlyConfig`,
yet `processConfig` returns true and `main` goes on to run the command of the
`commands` section. -/
theorem failed_files_stage_is_dropped :
    (∀ (σ : Type) (sys : Sys σ) (config : Hash) (s : σ),
        (processConfig sys config s).result ≠ Except.ok false) ∧
    (processFiles demoSys (some [("/ro/motd", Json.obj [("content", Json.str "hi")])]) ()).result =
        Except.ok false ∧
    (processConfig demoSys (some readOnlyConfig) ()).result = Except.ok true ∧
    (main demoSys readOnlyDocument ()).result = Except.ok () ∧
    runCmds (main demoSys readOnlyDocument ()).events =
        [⟨"sh", ["-c", "echo a"], none, ""⟩] := by
  refine ⟨fun σ sys config s => ?_, rfl, rfl, rfl, rfl⟩
  cases hu : unpackHash "files" config with
  | error p => simp [processConfig, Prog.bind_apply, Prog.bind, hu]
  | ok files =>
    cases files with
    | none => simp [processConfig, Prog.bind_apply, Prog.bind, hu]
    | some m =>
      cases hr : (processFiles sys (some m) s).result <;>
        simp [processConfig, Prog.bind_apply, Prog.bind, hu, hr]

end MetaInit
